import Mathlib

/-!
Verification of the survey reconciliation pipeline in
`scripts/data_extraction.py`.  The pipeline normalizes the name columns of
the intern and supervisor survey tables, performs a full outer join on a
four-part name key (`merge_datasets`), partitions the joined table into
complete / only-student / only-supervisor views (`complete_records_data`,
`only_student_data`, `only_supervisor_data`), recovers extra matches with a
secondary inner join on the student name alone
(`join_only_student_supervisor_data`), and assembles three final outputs
(`process_data`).

Tables are modelled as lists of rows; Python strings are modelled as lists
of code points (`PyStr`); `NaN` cells are modelled as `Option`.  The pandas
behaviours relevant here are modelled faithfully:

* `Series.str.lower().str.strip()` maps `NaN` to `NaN` and otherwise
  lowercases (ASCII range) and strips leading/trailing whitespace;
* `DataFrame.merge` treats `NaN` join keys as equal to `NaN` join keys
  (pandas, unlike SQL, matches missing key values against each other);
* column assignment (`df[c] = ...`) mutates the caller-visible table, so
  `merge_datasets` is modelled as also returning the post-call states of
  its two argument tables;
* `drop_duplicates(subset=ks, inplace=True)` keeps the first occurrence of
  each key tuple;
* `insert(_, 'idx', df.index)` after `reset_index(drop=True)` tags each
  row with its zero-based position in the table.

Joined rows additionally record which source-table position each side came
from (the `Nat` paired with each side).  This is a provenance tag implied
by the join semantics, used only to state claims about original
submissions; no filtering or deduplication step consults it (those use
column values only, as in the source).
-/

namespace Qualtrics

/-- Model of a Python string: its list of Unicode code points. -/
abbrev PyStr := List Nat

/-- Model of `str.lower` on one code point (ASCII range, as produced by
pandas for the name data handled here): uppercase A-Z maps to a-z. -/
def lowerChar (c : Nat) : Nat :=
  if 65 ≤ c ∧ c ≤ 90 then c + 32 else c

/-- Model of the whitespace class stripped by Python `str.strip()`
(space, tab, newline, vertical tab, form feed, carriage return). -/
def isSpaceChar (c : Nat) : Bool :=
  decide (c = 32 ∨ c = 9 ∨ c = 10 ∨ c = 11 ∨ c = 12 ∨ c = 13)

/-- Model of Python `str.lower()`. -/
def pyLower (s : PyStr) : PyStr := s.map lowerChar

/-- Model of Python `str.strip()`: drop leading, then trailing whitespace. -/
def pyStrip (s : PyStr) : PyStr :=
  ((s.dropWhile isSpaceChar).reverse.dropWhile isSpaceChar).reverse

/-- Normalization applied to every name column before the primary join
(`.str.lower().str.strip()`, lines 199-207): lowercase then strip. -/
def normalize (s : PyStr) : PyStr := pyStrip (pyLower s)

/-- Normalization of a nullable cell: `NaN` passes through
(`Series.str` operations leave missing values missing). -/
def normOpt (s : Option PyStr) : Option PyStr := s.map normalize

/-- One intern survey submission after date filtering and column selection
(lines 157-160 of `data_extraction.py`): recorded date, internship title,
the student's own name, the supervisor name reported by the student, and
the 27 self ratings.  Name cells are nullable; the recorded date is
modelled opaquely and the rating columns as a list of numbers. -/
structure InternRow where
  recordedDate : Nat
  intTitle : Option PyStr
  stuFirst : Option PyStr
  stuLast : Option PyStr
  supLinkFirst : Option PyStr
  supLinkLast : Option PyStr
  ssSelf : List Nat
deriving DecidableEq

/-- One supervisor survey submission after date filtering and column
selection (lines 162-165): recorded date, the supervisor's own name, the
intern name reported by the supervisor, the 27 ratings, and the two
free-text feedback cells. -/
structure SupervisorRow where
  recordedDate : Nat
  supFirst : Option PyStr
  supLast : Option PyStr
  firstNameIntern : Option PyStr
  lastNameIntern : Option PyStr
  ssSup : List Nat
  improveText : Option PyStr
  strengthText : Option PyStr
deriving DecidableEq

/-- Normalization of the four intern-side name columns performed by
`merge_datasets` (lines 199-202); all other columns are untouched. -/
def normalizeIntern (r : InternRow) : InternRow :=
  { r with
    stuFirst := normOpt r.stuFirst
    stuLast := normOpt r.stuLast
    supLinkFirst := normOpt r.supLinkFirst
    supLinkLast := normOpt r.supLinkLast }

/-- Normalization of the four supervisor-side name columns performed by
`merge_datasets` (lines 204-207). -/
def normalizeSupervisor (r : SupervisorRow) : SupervisorRow :=
  { r with
    supFirst := normOpt r.supFirst
    supLast := normOpt r.supLast
    firstNameIntern := normOpt r.firstNameIntern
    lastNameIntern := normOpt r.lastNameIntern }

/-- Four-part join key; a component is `none` when the cell is `NaN`. -/
abbrev Key4 := Option PyStr × Option PyStr × Option PyStr × Option PyStr

/-- Two-part (student name) join key. -/
abbrev Key2 := Option PyStr × Option PyStr

/-- Intern-side primary join key, `left_on` of line 211:
`["stuFirst", "stuLast", "supLinkFirst", "supLinkLast"]`. -/
def internKey4 (r : InternRow) : Key4 :=
  (r.stuFirst, r.stuLast, r.supLinkFirst, r.supLinkLast)

/-- Supervisor-side primary join key, `right_on` of line 212:
`["firstNameIntern", "lastNameIntern", "supFirst", "supLast"]`. -/
def supKey4 (r : SupervisorRow) : Key4 :=
  (r.firstNameIntern, r.lastNameIntern, r.supFirst, r.supLast)

/-- One row of the merged table: an intern side and a supervisor side,
each either absent (all its columns `NaN`) or the content of one source
row.  The `Nat` component records which position of the source table the
side came from; it is a provenance tag implied by the join semantics and
is never consulted by the filters or deduplications below. -/
structure MergedRow where
  intern : Option (Nat × InternRow)
  sup : Option (Nat × SupervisorRow)
deriving DecidableEq

/-- Merged-table column `stuFirst`. -/
def MergedRow.stuFirstCol (r : MergedRow) : Option PyStr :=
  r.intern.bind fun p => p.2.stuFirst

/-- Merged-table column `stuLast`. -/
def MergedRow.stuLastCol (r : MergedRow) : Option PyStr :=
  r.intern.bind fun p => p.2.stuLast

/-- Merged-table column `supLinkFirst`. -/
def MergedRow.supLinkFirstCol (r : MergedRow) : Option PyStr :=
  r.intern.bind fun p => p.2.supLinkFirst

/-- Merged-table column `supLinkLast`. -/
def MergedRow.supLinkLastCol (r : MergedRow) : Option PyStr :=
  r.intern.bind fun p => p.2.supLinkLast

/-- Merged-table column `firstNameIntern`. -/
def MergedRow.firstNameInternCol (r : MergedRow) : Option PyStr :=
  r.sup.bind fun p => p.2.firstNameIntern

/-- Merged-table column `lastNameIntern`. -/
def MergedRow.lastNameInternCol (r : MergedRow) : Option PyStr :=
  r.sup.bind fun p => p.2.lastNameIntern

/-- Merged-table column `supFirst`. -/
def MergedRow.supFirstCol (r : MergedRow) : Option PyStr :=
  r.sup.bind fun p => p.2.supFirst

/-- Merged-table column `supLast`. -/
def MergedRow.supLastCol (r : MergedRow) : Option PyStr :=
  r.sup.bind fun p => p.2.supLast

/-- Zero-based position tagging, the model of `reset_index(drop=True)`
followed by `insert(_, 'idx', df.index)`. -/
def enumFrom {α : Type _} (n : Nat) : List α → List (Nat × α)
  | [] => []
  | a :: l => (n, a) :: enumFrom (n + 1) l

/-- Supervisor rows of `iys` whose join key equals that of intern row `x`.
Pandas `merge` matches `NaN` key components against `NaN`, so key equality
is plain equality of the `Option` tuples. -/
def internMatches (iys : List (Nat × SupervisorRow)) (x : InternRow) :
    List (Nat × SupervisorRow) :=
  iys.filter fun jy => decide (supKey4 jy.2 = internKey4 x)

/-- Intern rows of `ixs` whose join key equals that of supervisor row `y`. -/
def supMatches (ixs : List (Nat × InternRow)) (y : SupervisorRow) :
    List (Nat × InternRow) :=
  ixs.filter fun ix => decide (internKey4 ix.2 = supKey4 y)

/-- Full outer join of lines 211-212 (`how = "outer"`): every intern row
is emitted once per matching supervisor row, or once with the supervisor
side absent when nothing matches; supervisor rows with no matching intern
row are appended with the intern side absent. -/
def outerJoin (xs : List InternRow) (ys : List SupervisorRow) : List MergedRow :=
  let ixs := enumFrom 0 xs
  let iys := enumFrom 0 ys
  (ixs.flatMap fun ix =>
    let ms := internMatches iys ix.2
    if ms.isEmpty then [⟨some ix, none⟩]
    else ms.map fun jy => ⟨some ix, some jy⟩)
  ++ ((iys.filter fun jy => (supMatches ixs jy.2).isEmpty).map
      fun jy => ⟨none, some jy⟩)

/-- Model of `merge_datasets` (lines 177-218).  The column assignments of
lines 199-207 mutate the caller-visible argument tables, so the model
returns the post-call states of both input tables together with the
merged table. -/
def mergeDatasets (xs : List InternRow) (ys : List SupervisorRow) :
    List InternRow × List SupervisorRow × List MergedRow :=
  let xsN := xs.map normalizeIntern
  let ysN := ys.map normalizeSupervisor
  (xsN, ysN, outerJoin xsN ysN)

/-- Merged-table test used by `only_student_data` line 286: the four
intern-side key columns are all non-null (`notna`). -/
def internColsPresent (r : MergedRow) : Bool :=
  r.stuFirstCol.isSome && r.stuLastCol.isSome
    && r.supLinkFirstCol.isSome && r.supLinkLastCol.isSome

/-- Merged-table test used by `only_supervisor_data` line 261: the four
intern-side key columns are all null (`isna`). -/
def internColsAbsent (r : MergedRow) : Bool :=
  r.stuFirstCol.isNone && r.stuLastCol.isNone
    && r.supLinkFirstCol.isNone && r.supLinkLastCol.isNone

/-- Merged-table test used by `only_supervisor_data` line 260: the four
supervisor-side key columns are all non-null. -/
def supColsPresent (r : MergedRow) : Bool :=
  r.firstNameInternCol.isSome && r.lastNameInternCol.isSome
    && r.supFirstCol.isSome && r.supLastCol.isSome

/-- Merged-table test used by `only_student_data` line 287: the four
supervisor-side key columns are all null. -/
def supColsAbsent (r : MergedRow) : Bool :=
  r.firstNameInternCol.isNone && r.lastNameInternCol.isNone
    && r.supFirstCol.isNone && r.supLastCol.isNone

/-- Test of `dropna(subset=key_columns, how="any")` (line 238): all eight
key columns non-null. -/
def completeCols (r : MergedRow) : Bool :=
  internColsPresent r && supColsPresent r

/-- Intern-side four key columns of a merged row, the dedup subset of
line 289. -/
def internKey4Cols (r : MergedRow) : Key4 :=
  (r.stuFirstCol, r.stuLastCol, r.supLinkFirstCol, r.supLinkLastCol)

/-- Supervisor-side four key columns of a merged row, the dedup subset of
line 263. -/
def supKey4Cols (r : MergedRow) : Key4 :=
  (r.firstNameInternCol, r.lastNameInternCol, r.supFirstCol, r.supLastCol)

/-- All eight key columns of a merged row, the dedup subset of line 240. -/
def key8Cols (r : MergedRow) : Key4 × Key4 :=
  (internKey4Cols r, supKey4Cols r)

instance : DecidableEq (Key4 × Key4) := instDecidableEqProd

/-- Model of `drop_duplicates(subset=...)`: keep the first occurrence of
each key value, in table order; `seen` accumulates the keys already kept. -/
def dedupByKey {α κ : Type _} [DecidableEq κ] (key : α → κ) :
    List κ → List α → List α
  | _, [] => []
  | seen, a :: l =>
    if key a ∈ seen then dedupByKey key seen l
    else a :: dedupByKey key (key a :: seen) l

/-- One row of the complete-records table: its `idx` (position in the
merged table) and all merged columns. -/
structure CompleteRow where
  idx : Nat
  row : MergedRow
deriving DecidableEq

/-- Rows of the merged table passing the `dropna` filter of
`complete_records_data` (line 238), tagged with `idx`. -/
def completeFiltered (merged : List MergedRow) : List CompleteRow :=
  ((enumFrom 0 merged).map fun p => CompleteRow.mk p.1 p.2).filter
    fun t => completeCols t.row

/-- Model of `complete_records_data` (lines 222-247): tag with `idx`,
drop rows with a null among the eight key columns, deduplicate on the
eight key columns keeping the first occurrence. -/
def completeRecordsData (merged : List MergedRow) : List CompleteRow :=
  dedupByKey (fun t => key8Cols t.row) [] (completeFiltered merged)

/-- One row of the only-students table: `idx`, plus the intern-origin
columns (the restriction `loc[:, :"ssSelf_27"]` of line 290 drops the
supervisor columns).  `src` is the provenance tag of the intern side. -/
structure StuOnlyRow where
  idx : Nat
  src : Nat
  row : InternRow
deriving DecidableEq

/-- One row of the only-supervisor table: `idx` plus the supervisor-origin
columns (the restriction `loc[:, "idx":]` of line 264). -/
structure SupOnlyRow where
  idx : Nat
  src : Nat
  row : SupervisorRow
deriving DecidableEq

/-- Rows passing the two filters of `only_student_data` (lines 286-287),
tagged with `idx`. -/
def studentFiltered (merged : List MergedRow) : List (Nat × MergedRow) :=
  ((enumFrom 0 merged).filter fun p => internColsPresent p.2).filter
    fun p => supColsAbsent p.2

/-- Model of `only_student_data` (lines 275-297): tag with `idx`, keep
rows whose intern-side key columns are all present and whose
supervisor-side key columns are all absent, deduplicate on the intern-side
four key columns keeping the first occurrence, and restrict to the
intern-origin columns.  A row passing the filter necessarily has an
intern side, which the final projection extracts. -/
def onlyStudentData (merged : List MergedRow) : List StuOnlyRow :=
  (dedupByKey (fun p => internKey4Cols p.2) [] (studentFiltered merged)).filterMap
    fun p => p.2.intern.map fun q => StuOnlyRow.mk p.1 q.1 q.2

/-- Rows passing the two filters of `only_supervisor_data`
(lines 260-261), tagged with `idx`. -/
def supervisorFiltered (merged : List MergedRow) : List (Nat × MergedRow) :=
  ((enumFrom 0 merged).filter fun p => supColsPresent p.2).filter
    fun p => internColsAbsent p.2

/-- Model of `only_supervisor_data` (lines 251-271): tag with `idx`, keep
rows whose supervisor-side key columns are all present and whose
intern-side key columns are all absent, deduplicate on the
supervisor-side four key columns, restrict to the supervisor-origin
columns. -/
def onlySupervisorData (merged : List MergedRow) : List SupOnlyRow :=
  (dedupByKey (fun p => supKey4Cols p.2) [] (supervisorFiltered merged)).filterMap
    fun p => p.2.sup.map fun q => SupOnlyRow.mk p.1 q.1 q.2

/-- One row of the secondary (inner) join: the intern-origin columns and
`idx_x`, and the supervisor-origin columns and `idx_y`. -/
structure ResolvedRow where
  idxX : Nat
  srcX : Nat
  rowX : InternRow
  idxY : Nat
  srcY : Nat
  rowY : SupervisorRow
deriving DecidableEq

/-- Student-name key of an only-students row, `left_on` of line 314. -/
def stuKey2 (t : StuOnlyRow) : Key2 := (t.row.stuFirst, t.row.stuLast)

/-- Reported-intern-name key of an only-supervisor row, `right_on` of
line 315. -/
def supOnlyKey2 (u : SupOnlyRow) : Key2 :=
  (u.row.firstNameIntern, u.row.lastNameIntern)

/-- Model of `join_only_student_supervisor_data` (lines 301-321): inner
join of the only-students and only-supervisor tables on the student name;
every combination of rows sharing a key is emitted, left rows in table
order each paired with its matches in right-table order. -/
def joinOnlyStudentSupervisorData (os : List StuOnlyRow) (osup : List SupOnlyRow) :
    List ResolvedRow :=
  os.flatMap fun t =>
    (osup.filter fun u => decide (supOnlyKey2 u = stuKey2 t)).map fun u =>
      ResolvedRow.mk t.idx t.src t.row u.idx u.src u.row

/-- One row of the final complete output, produced by the concatenation of
line 345: either a complete-records row or a resolved row (`pd.concat`
fills the columns missing from the other table with `NaN`, so each final
row is exactly one of the two shapes). -/
inductive FinalCompleteRow where
  | fromComplete : CompleteRow → FinalCompleteRow
  | fromResolved : ResolvedRow → FinalCompleteRow
deriving DecidableEq

/-- The three outputs of `process_data`. -/
structure Processed where
  finalComplete : List FinalCompleteRow
  finalOnlyStudent : List StuOnlyRow
  finalOnlySupervisor : List SupOnlyRow
deriving DecidableEq

/-- Model of `process_data` (lines 324-360): derive the three partitions,
each from its own copy of the merged table; inner-join the two "only"
partitions; concatenate complete and resolved rows; and drop from each
"only" partition the rows whose `idx` occurs among the corresponding
`idx_x` / `idx_y` values of the resolved table (lines 350 and 355). -/
def processData (merged : List MergedRow) : Processed :=
  let complete := completeRecordsData merged
  let os := onlyStudentData merged
  let osup := onlySupervisorData merged
  let resolved := joinOnlyStudentSupervisorData os osup
  { finalComplete :=
      complete.map FinalCompleteRow.fromComplete
        ++ resolved.map FinalCompleteRow.fromResolved
    finalOnlyStudent := os.filter fun t => !(resolved.any fun r => r.idxX == t.idx)
    finalOnlySupervisor := osup.filter fun u => !(resolved.any fun r => r.idxY == u.idx) }

/-- The whole core pipeline: `merge_datasets` followed by `process_data`. -/
def pipeline (xs : List InternRow) (ys : List SupervisorRow) : Processed :=
  processData (mergeDatasets xs ys).2.2

/-- Row class of the silent-drop case: a joined row entering none of the
three partitions (partial key presence on a side). -/
def onlyStudentPred (r : MergedRow) : Bool :=
  internColsPresent r && supColsAbsent r

/-- Test for membership in the only-supervisor partition class
(lines 260-261). -/
def onlySupervisorPred (r : MergedRow) : Bool :=
  supColsPresent r && internColsAbsent r

/-- Test for the silently dropped class: none of the three partition
filters accepts the row. -/
def droppedPred (r : MergedRow) : Bool :=
  !(completeCols r || onlyStudentPred r || onlySupervisorPred r)

/-- Test for a combined (both sides present) row whose intern-side key is
`k`; by `outerJoin_shape` the supervisor-side key of such a row is `k` as
well. -/
def pairedWithKey (k : Key4) (r : MergedRow) : Bool :=
  match r.intern, r.sup with
  | some p, some _ => decide (internKey4 p.2 = k)
  | _, _ => false

/-- Concrete intern row whose key has null supervisor-name components
(student name "a" "b"). -/
def nullKeyIntern : InternRow :=
  ⟨0, none, some [97], some [98], none, none, []⟩

/-- Concrete supervisor row reporting intern name "a" "b" with a null
supervisor name: its join key equals that of `nullKeyIntern`, nulls
matching nulls. -/
def nullKeySup : SupervisorRow :=
  ⟨0, none, none, some [97], some [98], [], none, none⟩

/-- Test that all four components of a key are non-null. -/
def key4Present (k : Key4) : Bool :=
  k.1.isSome && k.2.1.isSome && k.2.2.1.isSome && k.2.2.2.isSome

/-- Test that all four components of a key are null. -/
def key4Absent (k : Key4) : Bool :=
  k.1.isNone && k.2.1.isNone && k.2.2.1.isNone && k.2.2.2.isNone

/-- Student-name key of a resolved row (its intern-origin columns). -/
def resolvedKey2 (r : ResolvedRow) : Key2 := (r.rowX.stuFirst, r.rowX.stuLast)

/-- Concrete raw intern row with names "Ann", "Lee", "Bob", "Kim". -/
def rawAnnIntern : InternRow :=
  ⟨0, none, some [65, 110, 110], some [76, 101, 101], some [66, 111, 98],
    some [75, 105, 109], []⟩

/-- Concrete intern row of the scenario: student ("Ann","Lee"),
supervisor ("Bob","Kim"), self ratings 1..27. -/
def annIntern : InternRow :=
  ⟨0, none, some [65, 110, 110], some [76, 101, 101], some [66, 111, 98],
    some [75, 105, 109], List.range' 1 27⟩

/-- Concrete supervisor row of the scenario: supervisor ("bob"," kim "),
intern ("ann","lee"), ratings 1..27, feedback "ok" and "great". -/
def bobSup : SupervisorRow :=
  ⟨0, some [98, 111, 98], some [32, 107, 105, 109, 32], some [97, 110, 110],
    some [108, 101, 101], List.range' 1 27, some [111, 107],
    some [103, 114, 101, 97, 116]⟩

/-- Source position of the intern-origin content carried by a final
complete row, `none` when the row has no intern side. -/
def FinalCompleteRow.internSrc (fr : FinalCompleteRow) : Option Nat :=
  match fr with
  | .fromComplete c => c.row.intern.map Prod.fst
  | .fromResolved r => some r.srcX

/-- Source position of the supervisor-origin content carried by a final
complete row. -/
def FinalCompleteRow.supSrc (fr : FinalCompleteRow) : Option Nat :=
  match fr with
  | .fromComplete c => c.row.sup.map Prod.fst
  | .fromResolved r => some r.srcY

/-- The intern submission at position i of the normalized intern table
appears in the final complete output. -/
def internInFinalComplete (P : Processed) (i : Nat) : Prop :=
  ∃ fr ∈ P.finalComplete, FinalCompleteRow.internSrc fr = some i

/-- The intern submission at position i appears in the final only-students
output.  (The final only-supervisor output carries no intern-origin
columns at all, so an intern submission cannot appear there.) -/
def internInFinalOnlyStudent (P : Processed) (i : Nat) : Prop :=
  ∃ t ∈ P.finalOnlyStudent, t.src = i

/-- The supervisor submission at position j of the normalized supervisor
table appears in the final complete output. -/
def supInFinalComplete (P : Processed) (j : Nat) : Prop :=
  ∃ fr ∈ P.finalComplete, FinalCompleteRow.supSrc fr = some j

/-- The supervisor submission at position j appears in the final
only-supervisor output. -/
def supInFinalOnlySupervisor (P : Processed) (j : Nat) : Prop :=
  ∃ u ∈ P.finalOnlySupervisor, u.src = j

instance (P : Processed) (i : Nat) : Decidable (internInFinalComplete P i) :=
  inferInstanceAs (Decidable (∃ fr ∈ P.finalComplete, FinalCompleteRow.internSrc fr = some i))

instance (P : Processed) (i : Nat) : Decidable (internInFinalOnlyStudent P i) :=
  inferInstanceAs (Decidable (∃ t ∈ P.finalOnlyStudent, t.src = i))

instance (P : Processed) (j : Nat) : Decidable (supInFinalComplete P j) :=
  inferInstanceAs (Decidable (∃ fr ∈ P.finalComplete, FinalCompleteRow.supSrc fr = some j))

instance (P : Processed) (j : Nat) : Decidable (supInFinalOnlySupervisor P j) :=
  inferInstanceAs (Decidable (∃ u ∈ P.finalOnlySupervisor, u.src = j))

/-- Intern row with a fully present key ("a","b","c","d"), used twice to
exhibit the deduplication collapse. -/
def dupIntern : InternRow :=
  ⟨0, none, some [97], some [98], some [99], some [100], []⟩

/-- Intern row of the secondary-resolution scenario: student ("Sam","Ng"),
supervisor ("X","Y"). -/
def samIntern : InternRow :=
  ⟨0, none, some [83, 97, 109], some [78, 103], some [88], some [89], []⟩

/-- Supervisor row of the secondary-resolution scenario: supervisor
("Q","R"), reported intern ("sam","ng"). -/
def qSup : SupervisorRow :=
  ⟨0, some [81], some [82], some [115, 97, 109], some [110, 103], [], none, none⟩

theorem lowerChar_lowerChar (c : Nat) : lowerChar (lowerChar c) = lowerChar c := by
  unfold lowerChar
  by_cases h : 65 ≤ c ∧ c ≤ 90
  · simp only [if_pos h]
    have h2 : ¬(65 ≤ c + 32 ∧ c + 32 ≤ 90) := by omega
    simp only [if_neg h2]
  · simp only [if_neg h]

theorem isSpaceChar_lowerChar (c : Nat) : isSpaceChar (lowerChar c) = isSpaceChar c := by
  unfold lowerChar
  by_cases h : 65 ≤ c ∧ c ≤ 90
  · simp only [if_pos h, isSpaceChar, decide_eq_decide]
    omega
  · simp only [if_neg h]

theorem pyLower_pyLower (s : PyStr) : pyLower (pyLower s) = pyLower s := by
  unfold pyLower
  rw [List.map_map]
  exact List.map_congr_left fun c _ => lowerChar_lowerChar c

theorem pyStrip_eq_rdropWhile (s : PyStr) :
    pyStrip s = List.rdropWhile isSpaceChar (s.dropWhile isSpaceChar) := rfl

theorem isSpaceChar_comp_lowerChar : (isSpaceChar ∘ lowerChar) = isSpaceChar :=
  funext isSpaceChar_lowerChar

theorem dropWhile_lowerChar_map (s : PyStr) :
    (s.map lowerChar).dropWhile isSpaceChar = (s.dropWhile isSpaceChar).map lowerChar := by
  rw [List.dropWhile_map, isSpaceChar_comp_lowerChar]

theorem pyStrip_pyLower (s : PyStr) : pyStrip (pyLower s) = pyLower (pyStrip s) := by
  unfold pyStrip pyLower
  rw [dropWhile_lowerChar_map, ← List.map_reverse, dropWhile_lowerChar_map, List.map_reverse]

theorem dropWhile_pyStrip (s : PyStr) :
    (pyStrip s).dropWhile isSpaceChar = pyStrip s := by
  rw [pyStrip_eq_rdropWhile, List.dropWhile_eq_self_iff]
  intro hl
  obtain ⟨t, ht⟩ := List.rdropWhile_prefix isSpaceChar (s.dropWhile isSpaceChar)
  have hlen : 0 < (s.dropWhile isSpaceChar).length := by
    rw [← ht, List.length_append]
    omega
  have hhead := List.dropWhile_get_zero_not isSpaceChar s hlen
  have hget : (List.rdropWhile isSpaceChar (s.dropWhile isSpaceChar)).get ⟨0, hl⟩
      = (s.dropWhile isSpaceChar).get ⟨0, hlen⟩ := by
    have h1 : (List.rdropWhile isSpaceChar (s.dropWhile isSpaceChar))[0]?
        = (s.dropWhile isSpaceChar)[0]? := by
      conv_rhs => rw [← ht]
      exact (List.getElem?_append_left hl).symm
    rw [List.getElem?_eq_getElem hl, List.getElem?_eq_getElem hlen] at h1
    simpa using h1
  rw [hget]
  exact hhead

theorem pyStrip_pyStrip (s : PyStr) : pyStrip (pyStrip s) = pyStrip s := by
  rw [pyStrip_eq_rdropWhile (pyStrip s), dropWhile_pyStrip, pyStrip_eq_rdropWhile,
    List.rdropWhile_idempotent]

/-- C10: normalization is idempotent, normalize (normalize s) = normalize s
for every string s. -/
theorem normalize_idem (s : PyStr) : normalize (normalize s) = normalize s := by
  unfold normalize
  rw [pyStrip_pyLower (pyStrip (pyLower s)), pyStrip_pyStrip (pyLower s),
    ← pyStrip_pyLower (pyLower s), pyLower_pyLower s]

theorem mem_enumFrom {α : Type _} {n i : Nat} {a : α} {l : List α} :
    (i, a) ∈ enumFrom n l ↔ n ≤ i ∧ l[i - n]? = some a := by
  induction l generalizing n with
  | nil => simp [enumFrom]
  | cons b l ih =>
    simp only [enumFrom, List.mem_cons]
    constructor
    · intro h
      rcases h with h | h
      · have h1 : i = n ∧ a = b := by
          constructor
          · exact congrArg Prod.fst h
          · exact congrArg Prod.snd h
        obtain ⟨rfl, rfl⟩ := h1
        refine ⟨Nat.le_refl _, ?_⟩
        simp
      · obtain ⟨h1, h2⟩ := ih.mp h
        refine ⟨by omega, ?_⟩
        have h3 : i - n = (i - (n + 1)) + 1 := by omega
        rw [h3]
        simpa using h2
    · rintro ⟨h1, h2⟩
      rcases Nat.eq_or_lt_of_le h1 with h | h
      · left
        subst h
        simp only [Nat.sub_self] at h2
        simp only [List.getElem?_cons_zero, Option.some.injEq] at h2
        rw [h2]
      · right
        refine ih.mpr ⟨by omega, ?_⟩
        have h3 : i - n = (i - (n + 1)) + 1 := by omega
        rw [h3] at h2
        simpa using h2

theorem mem_enumFrom_zero {α : Type _} {i : Nat} {a : α} {l : List α} :
    (i, a) ∈ enumFrom 0 l ↔ l[i]? = some a := by
  rw [mem_enumFrom]
  simp

theorem enumFrom_inj {α : Type _} {n i : Nat} {a b : α} {l : List α}
    (ha : (i, a) ∈ enumFrom n l) (hb : (i, b) ∈ enumFrom n l) : a = b := by
  rw [mem_enumFrom] at ha hb
  have h := ha.2.symm.trans hb.2
  exact Option.some.inj h

theorem dedupByKey_sublist {α κ : Type _} [DecidableEq κ] (key : α → κ)
    (seen : List κ) (l : List α) : (dedupByKey key seen l).Sublist l := by
  induction l generalizing seen with
  | nil => simp [dedupByKey]
  | cons a l ih =>
    unfold dedupByKey
    by_cases h : key a ∈ seen
    · simp only [if_pos h]
      exact (ih seen).cons a
    · simp only [if_neg h]
      exact (ih (key a :: seen)).cons₂ a

theorem mem_of_mem_dedupByKey {α κ : Type _} [DecidableEq κ] {key : α → κ}
    {seen : List κ} {l : List α} {a : α} (h : a ∈ dedupByKey key seen l) : a ∈ l :=
  (dedupByKey_sublist key seen l).mem h

theorem key_not_seen_of_mem_dedupByKey {α κ : Type _} [DecidableEq κ] {key : α → κ}
    {seen : List κ} {l : List α} {a : α} (h : a ∈ dedupByKey key seen l) :
    key a ∉ seen := by
  induction l generalizing seen with
  | nil => simp [dedupByKey] at h
  | cons b l ih =>
    unfold dedupByKey at h
    by_cases hb : key b ∈ seen
    · rw [if_pos hb] at h
      exact ih h
    · rw [if_neg hb] at h
      rcases List.mem_cons.mp h with h | h
      · rw [h]
        exact hb
      · intro hc
        exact ih h (List.mem_cons_of_mem _ hc)

theorem dedupByKey_pairwise {α κ : Type _} [DecidableEq κ] (key : α → κ)
    (seen : List κ) (l : List α) :
    (dedupByKey key seen l).Pairwise fun a b => key a ≠ key b := by
  induction l generalizing seen with
  | nil => simp [dedupByKey]
  | cons a l ih =>
    unfold dedupByKey
    by_cases h : key a ∈ seen
    · simp only [if_pos h]
      exact ih seen
    · simp only [if_neg h]
      refine List.Pairwise.cons ?_ (ih (key a :: seen))
      intro b hb
      have := key_not_seen_of_mem_dedupByKey hb
      intro hk
      exact this (by rw [← hk]; exact List.mem_cons_self _ _)

theorem find?_eq_of_mem_dedupByKey {α κ : Type _} [DecidableEq κ] {key : α → κ}
    {seen : List κ} {l : List α} {a : α} (h : a ∈ dedupByKey key seen l) :
    l.find? (fun x => decide (key x = key a)) = some a := by
  induction l generalizing seen with
  | nil => simp [dedupByKey] at h
  | cons b l ih =>
    unfold dedupByKey at h
    by_cases hb : key b ∈ seen
    · rw [if_pos hb] at h
      have hne : key b ≠ key a := by
        intro hk
        exact key_not_seen_of_mem_dedupByKey h (hk ▸ hb)
      rw [List.find?_cons_of_neg _ (by simpa using hne)]
      exact ih h
    · rw [if_neg hb] at h
      rcases List.mem_cons.mp h with h | h
      · subst h
        rw [List.find?_cons_of_pos _ (by simp)]
      · have hne : key b ≠ key a := by
          intro hk
          exact key_not_seen_of_mem_dedupByKey h
            (by rw [← hk]; exact List.mem_cons_self _ _)
        rw [List.find?_cons_of_neg _ (by simpa using hne)]
        exact ih h

theorem exists_mem_dedupByKey {α κ : Type _} [DecidableEq κ] (key : α → κ)
    {seen : List κ} {l : List α} {a : α} (ha : a ∈ l) (hk : key a ∉ seen) :
    ∃ b ∈ dedupByKey key seen l, key b = key a := by
  induction l generalizing seen with
  | nil => simp at ha
  | cons b l ih =>
    unfold dedupByKey
    by_cases hb : key b ∈ seen
    · rw [if_pos hb]
      rcases List.mem_cons.mp ha with h | h
      · exact absurd (h ▸ hk) (by simpa using hb)
      · exact ih h hk
    · rw [if_neg hb]
      by_cases hk2 : key a = key b
      · exact ⟨b, List.mem_cons_self _ _, hk2.symm⟩
      · rcases List.mem_cons.mp ha with h | h
        · exact absurd (congrArg key h) hk2
        · obtain ⟨c, hc1, hc2⟩ := ih h (by
            intro hmem
            rcases List.mem_cons.mp hmem with hmem | hmem
            · exact hk2 hmem
            · exact hk hmem)
          exact ⟨c, List.mem_cons_of_mem _ hc1, hc2⟩

theorem enumFrom_countP {α : Type _} (q : α → Bool) (n : Nat) (l : List α) :
    (enumFrom n l).countP (fun p => q p.2) = l.countP q := by
  induction l generalizing n with
  | nil => simp [enumFrom]
  | cons a l ih =>
    unfold enumFrom
    by_cases h : q a
    · rw [List.countP_cons_of_pos _ _ (by simpa using h),
        List.countP_cons_of_pos _ _ h, ih]
    · rw [List.countP_cons_of_neg _ _ (by simpa using h),
        List.countP_cons_of_neg _ _ h, ih]

theorem internMatches_eq_nil_iff {iys : List (Nat × SupervisorRow)} {x : InternRow} :
    internMatches iys x = [] ↔ ∀ jy ∈ iys, supKey4 jy.2 ≠ internKey4 x := by
  unfold internMatches
  rw [List.filter_eq_nil_iff]
  simp

theorem supMatches_eq_nil_iff {ixs : List (Nat × InternRow)} {y : SupervisorRow} :
    supMatches ixs y = [] ↔ ∀ ix ∈ ixs, internKey4 ix.2 ≠ supKey4 y := by
  unfold supMatches
  rw [List.filter_eq_nil_iff]
  simp

/-- Inversion for membership in the outer join: a merged row is a matched
pair with equal keys, an unmatched intern row, or an unmatched supervisor
row. -/
theorem outerJoin_shape {xs : List InternRow} {ys : List SupervisorRow}
    {r : MergedRow} (h : r ∈ outerJoin xs ys) :
    (∃ ix jy, r = ⟨some ix, some jy⟩ ∧ ix ∈ enumFrom 0 xs ∧ jy ∈ enumFrom 0 ys
        ∧ supKey4 jy.2 = internKey4 ix.2)
    ∨ (∃ ix, r = ⟨some ix, none⟩ ∧ ix ∈ enumFrom 0 xs
        ∧ internMatches (enumFrom 0 ys) ix.2 = [])
    ∨ (∃ jy, r = ⟨none, some jy⟩ ∧ jy ∈ enumFrom 0 ys
        ∧ supMatches (enumFrom 0 xs) jy.2 = []) := by
  unfold outerJoin at h
  rcases List.mem_append.mp h with h | h
  · rw [List.mem_flatMap] at h
    obtain ⟨ix, hix, hr⟩ := h
    by_cases hm : (internMatches (enumFrom 0 ys) ix.2).isEmpty
    · rw [if_pos hm] at hr
      rcases List.mem_singleton.mp hr with rfl
      exact Or.inr (Or.inl ⟨ix, rfl, hix, List.isEmpty_iff.mp hm⟩)
    · rw [if_neg hm] at hr
      rw [List.mem_map] at hr
      obtain ⟨jy, hjy, rfl⟩ := hr
      have hjy2 := List.mem_filter.mp hjy
      refine Or.inl ⟨ix, jy, rfl, hix, hjy2.1, ?_⟩
      simpa using hjy2.2
  · rw [List.mem_map] at h
    obtain ⟨jy, hjy, rfl⟩ := h
    have hjy2 := List.mem_filter.mp hjy
    refine Or.inr (Or.inr ⟨jy, rfl, hjy2.1, ?_⟩)
    simpa using hjy2.2

/-- A matching intern/supervisor pair of rows produces a combined row. -/
theorem pair_mem_outerJoin {xs : List InternRow} {ys : List SupervisorRow}
    {ix : Nat × InternRow} {jy : Nat × SupervisorRow}
    (hx : ix ∈ enumFrom 0 xs) (hy : jy ∈ enumFrom 0 ys)
    (hk : supKey4 jy.2 = internKey4 ix.2) :
    (⟨some ix, some jy⟩ : MergedRow) ∈ outerJoin xs ys := by
  unfold outerJoin
  refine List.mem_append.mpr (Or.inl ?_)
  rw [List.mem_flatMap]
  refine ⟨ix, hx, ?_⟩
  have hjm : jy ∈ internMatches (enumFrom 0 ys) ix.2 :=
    List.mem_filter.mpr ⟨hy, by simpa using hk⟩
  have hne : ¬(internMatches (enumFrom 0 ys) ix.2).isEmpty := by
    rw [List.isEmpty_iff]
    exact List.ne_nil_of_mem hjm
  rw [if_neg hne]
  exact List.mem_map.mpr ⟨jy, hjm, rfl⟩

/-- An intern row with no key match appears with the supervisor side
absent. -/
theorem left_unmatched_mem_outerJoin {xs : List InternRow} {ys : List SupervisorRow}
    {ix : Nat × InternRow} (hx : ix ∈ enumFrom 0 xs)
    (hm : internMatches (enumFrom 0 ys) ix.2 = []) :
    (⟨some ix, none⟩ : MergedRow) ∈ outerJoin xs ys := by
  unfold outerJoin
  refine List.mem_append.mpr (Or.inl ?_)
  rw [List.mem_flatMap]
  refine ⟨ix, hx, ?_⟩
  rw [if_pos (List.isEmpty_iff.mpr hm)]
  exact List.mem_singleton.mpr rfl

/-- A supervisor row with no key match appears with the intern side
absent. -/
theorem right_unmatched_mem_outerJoin {xs : List InternRow} {ys : List SupervisorRow}
    {jy : Nat × SupervisorRow} (hy : jy ∈ enumFrom 0 ys)
    (hm : supMatches (enumFrom 0 xs) jy.2 = []) :
    (⟨none, some jy⟩ : MergedRow) ∈ outerJoin xs ys := by
  unfold outerJoin
  refine List.mem_append.mpr (Or.inr ?_)
  rw [List.mem_map]
  refine ⟨jy, ?_, rfl⟩
  exact List.mem_filter.mpr ⟨hy, by simpa using hm⟩

theorem countP_flatMap {α β : Type _} (p : β → Bool) (f : α → List β) (l : List α) :
    (l.flatMap f).countP p = (l.map fun a => (f a).countP p).sum := by
  induction l with
  | nil => simp
  | cons a l ih => simp [List.flatMap_cons, List.countP_append, ih]

theorem sum_map_ite_count {α : Type _} (l : List α) (q : α → Bool) (m : Nat) :
    (l.map fun a => if q a then m else 0).sum = l.countP q * m := by
  induction l with
  | nil => simp
  | cons a l ih =>
    by_cases h : q a
    · rw [List.map_cons, if_pos h, List.sum_cons, ih,
        List.countP_cons_of_pos _ _ h]
      ring
    · rw [List.map_cons, if_neg h, List.sum_cons, ih,
        List.countP_cons_of_neg _ _ h]
      omega

theorem internMatches_length_of_key (iys : List (Nat × SupervisorRow))
    {x : InternRow} {k : Key4} (hk : internKey4 x = k) :
    (internMatches iys x).length = iys.countP fun jy => decide (supKey4 jy.2 = k) := by
  unfold internMatches
  rw [← List.countP_eq_length_filter]
  subst hk
  rfl

/-- C3 support: the rows of the outer join combining both sides with
intern-side key `k` number exactly (intern rows with key k) times
(supervisor rows with key k). -/
theorem outerJoin_countP_pairedWithKey (xs : List InternRow)
    (ys : List SupervisorRow) (k : Key4) :
    (outerJoin xs ys).countP (pairedWithKey k)
      = (xs.countP fun x => decide (internKey4 x = k))
        * (ys.countP fun y => decide (supKey4 y = k)) := by
  unfold outerJoin
  rw [List.countP_append]
  have hright : ((((enumFrom 0 ys).filter fun jy =>
      (supMatches (enumFrom 0 xs) jy.2).isEmpty).map
        (fun jy => (⟨none, some jy⟩ : MergedRow))).countP (pairedWithKey k)) = 0 := by
    rw [List.countP_map]
    apply List.countP_eq_zero.mpr
    intro jy _
    simp [Function.comp, pairedWithKey]
  rw [hright, Nat.add_zero, countP_flatMap]
  have hmap : ((enumFrom 0 xs).map fun ix =>
      ((if (internMatches (enumFrom 0 ys) ix.2).isEmpty
          then [(⟨some ix, none⟩ : MergedRow)]
          else (internMatches (enumFrom 0 ys) ix.2).map
            fun jy => ⟨some ix, some jy⟩)).countP (pairedWithKey k))
      = (enumFrom 0 xs).map fun ix =>
          if decide (internKey4 ix.2 = k)
          then (ys.countP fun y => decide (supKey4 y = k)) else 0 := by
    apply List.map_congr_left
    intro ix _
    by_cases hm : (internMatches (enumFrom 0 ys) ix.2).isEmpty
    · rw [if_pos hm]
      have h0 : (internMatches (enumFrom 0 ys) ix.2).length = 0 := by
        rw [List.isEmpty_iff.mp hm]
        rfl
      by_cases hk : internKey4 ix.2 = k
      · rw [if_pos (by simpa using hk)]
        have := internMatches_length_of_key (enumFrom 0 ys) hk
        rw [this] at h0
        rw [enumFrom_countP (fun y => decide (supKey4 y = k)) 0 ys] at h0
        simp [List.countP_cons, pairedWithKey, h0]
      · rw [if_neg (by simpa using hk)]
        simp [List.countP_cons, pairedWithKey, hk]
    · rw [if_neg hm, List.countP_map]
      by_cases hk : internKey4 ix.2 = k
      · rw [if_pos (by simpa using hk)]
        have hconst : ∀ jy ∈ internMatches (enumFrom 0 ys) ix.2,
            (pairedWithKey k ∘ fun jy => (⟨some ix, some jy⟩ : MergedRow)) jy = true := by
          intro jy _
          simp [Function.comp, pairedWithKey, hk]
        rw [List.countP_eq_length_filter, List.filter_eq_self.mpr hconst,
          internMatches_length_of_key (enumFrom 0 ys) hk,
          enumFrom_countP (fun y => decide (supKey4 y = k)) 0 ys]
      · rw [if_neg (by simpa using hk)]
        apply List.countP_eq_zero.mpr
        intro jy _
        simp [Function.comp, pairedWithKey, hk]
  rw [hmap, sum_map_ite_count, enumFrom_countP (fun x => decide (internKey4 x = k)) 0 xs]

/-- C3: the primary merge is a full outer join on the 4-part normalized
name key: every normalized intern row appears at least once, paired with
every supervisor row matching its key or with the supervisor side null
when none matches; symmetrically every supervisor row appears at least
once; and when k intern rows and m supervisor rows share the same key,
exactly k times m combined rows are emitted for that key group. -/
theorem merge_outer_join_semantics (xs : List InternRow) (ys : List SupervisorRow) :
    (∀ i x, (xs.map normalizeIntern)[i]? = some x →
      (∃ r ∈ (mergeDatasets xs ys).2.2, r.intern = some (i, x))
      ∧ (∀ j y, (ys.map normalizeSupervisor)[j]? = some y →
          supKey4 y = internKey4 x →
          (⟨some (i, x), some (j, y)⟩ : MergedRow) ∈ (mergeDatasets xs ys).2.2)
      ∧ ((∀ y ∈ ys.map normalizeSupervisor, supKey4 y ≠ internKey4 x) →
          (⟨some (i, x), none⟩ : MergedRow) ∈ (mergeDatasets xs ys).2.2))
    ∧ (∀ j y, (ys.map normalizeSupervisor)[j]? = some y →
      (∃ r ∈ (mergeDatasets xs ys).2.2, r.sup = some (j, y))
      ∧ ((∀ x ∈ xs.map normalizeIntern, internKey4 x ≠ supKey4 y) →
          (⟨none, some (j, y)⟩ : MergedRow) ∈ (mergeDatasets xs ys).2.2))
    ∧ (∀ k : Key4,
        ((mergeDatasets xs ys).2.2).countP (pairedWithKey k)
          = ((xs.map normalizeIntern).countP fun x => decide (internKey4 x = k))
            * ((ys.map normalizeSupervisor).countP fun y => decide (supKey4 y = k))) := by
  have hm : (mergeDatasets xs ys).2.2
      = outerJoin (xs.map normalizeIntern) (ys.map normalizeSupervisor) := rfl
  rw [hm]
  refine ⟨?_, ?_, ?_⟩
  · intro i x hx
    have hmem : (i, x) ∈ enumFrom 0 (xs.map normalizeIntern) :=
      mem_enumFrom_zero.mpr hx
    refine ⟨?_, ?_, ?_⟩
    · by_cases hms : internMatches (enumFrom 0 (ys.map normalizeSupervisor)) x = []
      · exact ⟨⟨some (i, x), none⟩, left_unmatched_mem_outerJoin hmem hms, rfl⟩
      · obtain ⟨jy, hjy⟩ := List.exists_mem_of_ne_nil _ hms
        have hjy2 := List.mem_filter.mp hjy
        exact ⟨⟨some (i, x), some jy⟩,
          pair_mem_outerJoin hmem hjy2.1 (by simpa using hjy2.2), rfl⟩
    · intro j y hy hk
      exact pair_mem_outerJoin hmem (mem_enumFrom_zero.mpr hy) hk
    · intro hno
      refine left_unmatched_mem_outerJoin hmem ?_
      rw [internMatches_eq_nil_iff]
      intro jy hjy
      have hj2 := mem_enumFrom.mp hjy
      exact hno jy.2 (List.getElem?_mem hj2.2)
  · intro j y hy
    have hmem : (j, y) ∈ enumFrom 0 (ys.map normalizeSupervisor) :=
      mem_enumFrom_zero.mpr hy
    refine ⟨?_, ?_⟩
    · by_cases hms : supMatches (enumFrom 0 (xs.map normalizeIntern)) y = []
      · exact ⟨⟨none, some (j, y)⟩, right_unmatched_mem_outerJoin hmem hms, rfl⟩
      · obtain ⟨ix, hix⟩ := List.exists_mem_of_ne_nil _ hms
        have hix2 := List.mem_filter.mp hix
        exact ⟨⟨some ix, some (j, y)⟩,
          pair_mem_outerJoin hix2.1 hmem (by
            have := hix2.2
            simp only [decide_eq_true_eq] at this
            exact this.symm), rfl⟩
    · intro hno
      refine right_unmatched_mem_outerJoin hmem ?_
      rw [supMatches_eq_nil_iff]
      intro ix hix
      have hi2 := mem_enumFrom.mp hix
      exact hno ix.2 (List.getElem?_mem hi2.2)
  · intro k
    exact outerJoin_countP_pairedWithKey _ _ k

/-- C6 counterexample: pandas pairs rows whose keys agree with nulls in
corresponding components — an intern row with a null key column is paired
with a supervisor row, contradicting the claim that such a row can appear
only unmatched with the whole other side null. -/
theorem null_key_pairing_counterexample :
    (mergeDatasets [nullKeyIntern] [nullKeySup]).2.2
        = [⟨some (0, nullKeyIntern), some (0, nullKeySup)⟩]
      ∧ nullKeyIntern.supLinkFirst = none
      ∧ (⟨some (0, nullKeyIntern), some (0, nullKeySup)⟩ : MergedRow).sup ≠ none := by
  refine ⟨by decide, rfl, by decide⟩

/-- C6 amended: normalization maps null to null, and in the primary outer
join a null key component matches a null key component of the other side:
two rows are paired exactly when their four-part keys are equal as
nullable tuples, so a row with nulls among its key columns pairs with any
row of the other side whose key tuple is equal (nulls included), and it
appears unmatched exactly when no row of the other side has an equal key
tuple. -/
theorem null_key_matching (xs : List InternRow) (ys : List SupervisorRow) :
    normOpt none = none
    ∧ (∀ r ∈ outerJoin xs ys, ∀ p q, r.intern = some p → r.sup = some q →
        supKey4 q.2 = internKey4 p.2)
    ∧ (∀ i x j y, xs[i]? = some x → ys[j]? = some y → supKey4 y = internKey4 x →
        (⟨some (i, x), some (j, y)⟩ : MergedRow) ∈ outerJoin xs ys)
    ∧ (∀ i x, xs[i]? = some x →
        ((⟨some (i, x), none⟩ : MergedRow) ∈ outerJoin xs ys ↔
          ∀ y ∈ ys, supKey4 y ≠ internKey4 x)) := by
  refine ⟨rfl, ?_, ?_, ?_⟩
  · intro r hr p q hp hq
    rcases outerJoin_shape hr with ⟨ix, jy, heq, _, _, hk⟩ | ⟨ix, heq, _, _⟩
      | ⟨jy, heq, _, _⟩
    · subst heq
      have hpi : ix = p := Option.some.inj hp
      have hqj : jy = q := Option.some.inj hq
      rw [← hpi, ← hqj]
      exact hk
    · subst heq
      exact Option.noConfusion hq
    · subst heq
      exact Option.noConfusion hp
  · intro i x j y hx hy hk
    exact pair_mem_outerJoin (mem_enumFrom_zero.mpr hx) (mem_enumFrom_zero.mpr hy) hk
  · intro i x hx
    constructor
    · intro hr y hy
      rcases outerJoin_shape hr with ⟨ix, jy, heq, _, _, _⟩ | ⟨ix, heq, _, hm2⟩
        | ⟨jy, heq, _, _⟩
      · simp only [MergedRow.mk.injEq] at heq
        exact absurd heq.2 (by simp)
      · simp only [MergedRow.mk.injEq] at heq
        have hix : ix = (i, x) := Option.some.inj heq.1.symm
        rw [hix] at hm2
        rw [internMatches_eq_nil_iff] at hm2
        obtain ⟨j2, hj2⟩ := List.getElem?_of_mem hy
        exact hm2 (j2, y) (mem_enumFrom_zero.mpr hj2)
      · simp only [MergedRow.mk.injEq] at heq
        exact absurd heq.1 (by simp)
    · intro hno
      refine left_unmatched_mem_outerJoin (mem_enumFrom_zero.mpr hx) ?_
      rw [internMatches_eq_nil_iff]
      intro jy hjy
      exact hno jy.2 (List.getElem?_mem (mem_enumFrom.mp hjy).2)

theorem sup_not_present_and_absent {r : MergedRow} (h1 : supColsPresent r = true)
    (h2 : supColsAbsent r = true) : False := by
  simp only [supColsPresent, Bool.and_eq_true] at h1
  simp only [supColsAbsent, Bool.and_eq_true] at h2
  have ha := h1.1.1.1
  have hb := h2.1.1.1
  cases h : r.firstNameInternCol with
  | none => rw [h] at ha; simp at ha
  | some v => rw [h] at hb; simp at hb

theorem intern_not_present_and_absent {r : MergedRow} (h1 : internColsPresent r = true)
    (h2 : internColsAbsent r = true) : False := by
  simp only [internColsPresent, Bool.and_eq_true] at h1
  simp only [internColsAbsent, Bool.and_eq_true] at h2
  have ha := h1.1.1.1
  have hb := h2.1.1.1
  cases h : r.stuFirstCol with
  | none => rw [h] at ha; simp at ha
  | some v => rw [h] at hb; simp at hb

theorem internColsPresent_some (ix : Nat × InternRow) (s : Option (Nat × SupervisorRow)) :
    internColsPresent ⟨some ix, s⟩ = key4Present (internKey4 ix.2) := rfl

theorem internColsPresent_none (s : Option (Nat × SupervisorRow)) :
    internColsPresent ⟨none, s⟩ = false := rfl

theorem internColsAbsent_none (s : Option (Nat × SupervisorRow)) :
    internColsAbsent ⟨none, s⟩ = true := rfl

theorem internColsAbsent_some (ix : Nat × InternRow) (s : Option (Nat × SupervisorRow)) :
    internColsAbsent ⟨some ix, s⟩ = key4Absent (internKey4 ix.2) := rfl

theorem supColsPresent_some (t : Option (Nat × InternRow)) (jy : Nat × SupervisorRow) :
    supColsPresent ⟨t, some jy⟩ = key4Present (supKey4 jy.2) := rfl

theorem supColsPresent_none (t : Option (Nat × InternRow)) :
    supColsPresent ⟨t, none⟩ = false := rfl

theorem supColsAbsent_none (t : Option (Nat × InternRow)) :
    supColsAbsent ⟨t, none⟩ = true := rfl

theorem supColsAbsent_some (t : Option (Nat × InternRow)) (jy : Nat × SupervisorRow) :
    supColsAbsent ⟨t, some jy⟩ = key4Absent (supKey4 jy.2) := rfl

theorem internKey4Cols_some (ix : Nat × InternRow) (s : Option (Nat × SupervisorRow)) :
    internKey4Cols ⟨some ix, s⟩ = internKey4 ix.2 := rfl

theorem supKey4Cols_some (t : Option (Nat × InternRow)) (jy : Nat × SupervisorRow) :
    supKey4Cols ⟨t, some jy⟩ = supKey4 jy.2 := rfl

theorem key4Present_absent_false {k : Key4} (h1 : key4Present k = true)
    (h2 : key4Absent k = true) : False := by
  simp only [key4Present, Bool.and_eq_true] at h1
  simp only [key4Absent, Bool.and_eq_true] at h2
  have ha := h1.1.1.1
  have hb := h2.1.1.1
  cases h : k.1 with
  | none => rw [h] at ha; simp at ha
  | some v => rw [h] at hb; simp at hb

theorem mem_completeFiltered {merged : List MergedRow} {t : CompleteRow} :
    t ∈ completeFiltered merged ↔
      (t.idx, t.row) ∈ enumFrom 0 merged ∧ completeCols t.row = true := by
  unfold completeFiltered
  rw [List.mem_filter, List.mem_map]
  constructor
  · rintro ⟨⟨p, hp, rfl⟩, h2⟩
    exact ⟨hp, h2⟩
  · rintro ⟨h1, h2⟩
    exact ⟨⟨(t.idx, t.row), h1, rfl⟩, h2⟩

theorem mem_studentFiltered {merged : List MergedRow} {p : Nat × MergedRow} :
    p ∈ studentFiltered merged ↔
      p ∈ enumFrom 0 merged ∧ internColsPresent p.2 = true ∧ supColsAbsent p.2 = true := by
  unfold studentFiltered
  rw [List.mem_filter, List.mem_filter]
  tauto

theorem mem_supervisorFiltered {merged : List MergedRow} {p : Nat × MergedRow} :
    p ∈ supervisorFiltered merged ↔
      p ∈ enumFrom 0 merged ∧ supColsPresent p.2 = true ∧ internColsAbsent p.2 = true := by
  unfold supervisorFiltered
  rw [List.mem_filter, List.mem_filter]
  tauto

theorem mem_onlyStudentData {merged : List MergedRow} {t : StuOnlyRow} :
    t ∈ onlyStudentData merged ↔
      ∃ p ∈ dedupByKey (fun p => internKey4Cols p.2) [] (studentFiltered merged),
        p.1 = t.idx ∧ p.2.intern = some (t.src, t.row) := by
  unfold onlyStudentData
  rw [List.mem_filterMap]
  constructor
  · rintro ⟨p, hp, hf⟩
    cases hq : p.2.intern with
    | none => rw [hq] at hf; exact absurd hf (by simp)
    | some q =>
      rw [hq] at hf
      simp only [Option.map_some'] at hf
      have hf2 := Option.some.inj hf
      subst hf2
      exact ⟨p, hp, rfl, by rw [hq]⟩
  · rintro ⟨p, hp, h1, h2⟩
    refine ⟨p, hp, ?_⟩
    rw [h2]
    simp only [Option.map_some']
    rw [h1]

theorem mem_onlySupervisorData {merged : List MergedRow} {u : SupOnlyRow} :
    u ∈ onlySupervisorData merged ↔
      ∃ p ∈ dedupByKey (fun p => supKey4Cols p.2) [] (supervisorFiltered merged),
        p.1 = u.idx ∧ p.2.sup = some (u.src, u.row) := by
  unfold onlySupervisorData
  rw [List.mem_filterMap]
  constructor
  · rintro ⟨p, hp, hf⟩
    cases hq : p.2.sup with
    | none => rw [hq] at hf; exact absurd hf (by simp)
    | some q =>
      rw [hq] at hf
      simp only [Option.map_some'] at hf
      have hf2 := Option.some.inj hf
      subst hf2
      exact ⟨p, hp, rfl, by rw [hq]⟩
  · rintro ⟨p, hp, h1, h2⟩
    refine ⟨p, hp, ?_⟩
    rw [h2]
    simp only [Option.map_some']
    rw [h1]

theorem dedupByKey_key_inj {α κ : Type _} [DecidableEq κ] {key : α → κ}
    {seen : List κ} {l : List α} {a b : α} (ha : a ∈ dedupByKey key seen l)
    (hb : b ∈ dedupByKey key seen l) (hk : key a = key b) : a = b := by
  by_contra hne
  have hp := dedupByKey_pairwise key seen l
  have hsym : Symmetric fun a b : α => key a ≠ key b := fun _ _ h e => h e.symm
  exact (hp.forall hsym ha hb hne) hk

theorem join_row_cases {xs : List InternRow} {ys : List SupervisorRow}
    {r : MergedRow} {i : Nat} {x : InternRow} (hr : r ∈ outerJoin xs ys)
    (hi : r.intern = some (i, x)) :
    (i, x) ∈ enumFrom 0 xs ∧
      ((∃ jy, r = ⟨some (i, x), some jy⟩ ∧ jy ∈ internMatches (enumFrom 0 ys) x)
        ∨ (r = ⟨some (i, x), none⟩ ∧ internMatches (enumFrom 0 ys) x = [])) := by
  rcases outerJoin_shape hr with ⟨ix, jy, heq, hx, hy, hk⟩ | ⟨ix, heq, hx, hm⟩
    | ⟨jy, heq, _, _⟩
  · subst heq
    have hix : ix = (i, x) := Option.some.inj hi
    subst hix
    exact ⟨hx, Or.inl ⟨jy, rfl, List.mem_filter.mpr ⟨hy, by simpa using hk⟩⟩⟩
  · subst heq
    have hix : ix = (i, x) := Option.some.inj hi
    subst hix
    exact ⟨hx, Or.inr ⟨rfl, hm⟩⟩
  · subst heq
    exact Option.noConfusion hi

theorem join_row_cases_sup {xs : List InternRow} {ys : List SupervisorRow}
    {r : MergedRow} {j : Nat} {y : SupervisorRow} (hr : r ∈ outerJoin xs ys)
    (hj : r.sup = some (j, y)) :
    (j, y) ∈ enumFrom 0 ys ∧
      ((∃ ix, r = ⟨some ix, some (j, y)⟩ ∧ ix ∈ supMatches (enumFrom 0 xs) y)
        ∨ (r = ⟨none, some (j, y)⟩ ∧ supMatches (enumFrom 0 xs) y = [])) := by
  rcases outerJoin_shape hr with ⟨ix, jy, heq, hx, hy, hk⟩ | ⟨ix, heq, hx, hm⟩
    | ⟨jy, heq, hy, hm⟩
  · subst heq
    have hjy : jy = (j, y) := Option.some.inj hj
    subst hjy
    exact ⟨hy, Or.inl ⟨ix, rfl, List.mem_filter.mpr ⟨hx, by simpa using hk.symm⟩⟩⟩
  · subst heq
    exact Option.noConfusion hj
  · subst heq
    have hjy : jy = (j, y) := Option.some.inj hj
    subst hjy
    exact ⟨hy, Or.inr ⟨rfl, hm⟩⟩

/-- Structure of an only-students row derived from a join: it comes from
an unmatched intern row with a fully present key. -/
theorem onlyStudentData_elim {xs : List InternRow} {ys : List SupervisorRow}
    {t : StuOnlyRow} (ht : t ∈ onlyStudentData (outerJoin xs ys)) :
    (t.idx, (⟨some (t.src, t.row), none⟩ : MergedRow))
        ∈ dedupByKey (fun p => internKey4Cols p.2) []
            (studentFiltered (outerJoin xs ys))
      ∧ (t.src, t.row) ∈ enumFrom 0 xs
      ∧ internMatches (enumFrom 0 ys) t.row = []
      ∧ key4Present (internKey4 t.row) = true := by
  obtain ⟨p, hp, hidx, hintern⟩ := mem_onlyStudentData.mp ht
  have hpf := mem_of_mem_dedupByKey hp
  obtain ⟨henum, hpres, habs⟩ := mem_studentFiltered.mp hpf
  have hmem : p.2 ∈ outerJoin xs ys := List.getElem?_mem (mem_enumFrom_zero.mp henum)
  obtain ⟨hxmem, hcases⟩ := join_row_cases hmem hintern
  rcases hcases with ⟨jy, hpeq, hjy⟩ | ⟨hpeq, hm⟩
  · rw [hpeq, supColsAbsent_some] at habs
    rw [hpeq, internColsPresent_some] at hpres
    have hk2 : supKey4 jy.2 = internKey4 t.row := by
      simpa using (List.mem_filter.mp hjy).2
    rw [hk2] at habs
    exact (key4Present_absent_false hpres habs).elim
  · refine ⟨?_, hxmem, hm, ?_⟩
    · rw [← hidx, ← hpeq]
      exact hp
    · rw [hpeq, internColsPresent_some] at hpres
      exact hpres

/-- Structure of an only-supervisor row derived from a join: it comes
from an unmatched supervisor row with a fully present key. -/
theorem onlySupervisorData_elim {xs : List InternRow} {ys : List SupervisorRow}
    {u : SupOnlyRow} (hu : u ∈ onlySupervisorData (outerJoin xs ys)) :
    (u.idx, (⟨none, some (u.src, u.row)⟩ : MergedRow))
        ∈ dedupByKey (fun p => supKey4Cols p.2) []
            (supervisorFiltered (outerJoin xs ys))
      ∧ (u.src, u.row) ∈ enumFrom 0 ys
      ∧ supMatches (enumFrom 0 xs) u.row = []
      ∧ key4Present (supKey4 u.row) = true := by
  obtain ⟨p, hp, hidx, hsup⟩ := mem_onlySupervisorData.mp hu
  have hpf := mem_of_mem_dedupByKey hp
  obtain ⟨henum, hpres, habs⟩ := mem_supervisorFiltered.mp hpf
  have hmem : p.2 ∈ outerJoin xs ys := List.getElem?_mem (mem_enumFrom_zero.mp henum)
  obtain ⟨hymem, hcases⟩ := join_row_cases_sup hmem hsup
  rcases hcases with ⟨ix, hpeq, hix⟩ | ⟨hpeq, hm⟩
  · rw [hpeq, internColsAbsent_some] at habs
    rw [hpeq, supColsPresent_some] at hpres
    have hk2 : internKey4 ix.2 = supKey4 u.row := by
      simpa using (List.mem_filter.mp hix).2
    rw [hk2] at habs
    exact (key4Present_absent_false hpres habs).elim
  · refine ⟨?_, hymem, hm, ?_⟩
    · rw [← hidx, ← hpeq]
      exact hp
    · rw [hpeq, supColsPresent_some] at hpres
      exact hpres

/-- Structure of a complete-records row derived from a join: it is a
matched pair with equal, fully present keys. -/
theorem completeRecordsData_elim {xs : List InternRow} {ys : List SupervisorRow}
    {c : CompleteRow} (hc : c ∈ completeRecordsData (outerJoin xs ys)) :
    ∃ ix jy, c.row = ⟨some ix, some jy⟩ ∧ ix ∈ enumFrom 0 xs ∧ jy ∈ enumFrom 0 ys
      ∧ supKey4 jy.2 = internKey4 ix.2 ∧ key4Present (internKey4 ix.2) = true
      ∧ (c.idx, c.row) ∈ enumFrom 0 (outerJoin xs ys) := by
  have hcf := mem_of_mem_dedupByKey hc
  obtain ⟨henum, hcols⟩ := mem_completeFiltered.mp hcf
  have hmem : c.row ∈ outerJoin xs ys := List.getElem?_mem (mem_enumFrom_zero.mp henum)
  rcases outerJoin_shape hmem with ⟨ix, jy, heq, hx, hy, hk⟩ | ⟨ix, heq, _, _⟩
    | ⟨jy, heq, _, _⟩
  · refine ⟨ix, jy, heq, hx, hy, hk, ?_, henum⟩
    rw [heq] at hcols
    simp only [completeCols, Bool.and_eq_true] at hcols
    rw [internColsPresent_some] at hcols
    exact hcols.1
  · rw [heq] at hcols
    simp [completeCols, supColsPresent_none] at hcols
  · rw [heq] at hcols
    simp [completeCols, internColsPresent_none] at hcols

theorem mem_joinOnly {os : List StuOnlyRow} {osup : List SupOnlyRow} {r : ResolvedRow} :
    r ∈ joinOnlyStudentSupervisorData os osup ↔
      ∃ t ∈ os, ∃ u ∈ osup, supOnlyKey2 u = stuKey2 t
        ∧ r = ResolvedRow.mk t.idx t.src t.row u.idx u.src u.row := by
  unfold joinOnlyStudentSupervisorData
  rw [List.mem_flatMap]
  constructor
  · rintro ⟨t, ht, hr⟩
    rw [List.mem_map] at hr
    obtain ⟨u, hu, rfl⟩ := hr
    have hu2 := List.mem_filter.mp hu
    exact ⟨t, ht, u, hu2.1, by simpa using hu2.2, rfl⟩
  · rintro ⟨t, ht, u, hu, hk, rfl⟩
    exact ⟨t, ht, List.mem_map.mpr ⟨u, List.mem_filter.mpr ⟨hu, by simpa using hk⟩, rfl⟩⟩

theorem mem_processData_finalComplete {merged : List MergedRow} {fr : FinalCompleteRow} :
    fr ∈ (processData merged).finalComplete ↔
      (∃ c ∈ completeRecordsData merged, fr = FinalCompleteRow.fromComplete c)
      ∨ (∃ r ∈ joinOnlyStudentSupervisorData (onlyStudentData merged)
            (onlySupervisorData merged), fr = FinalCompleteRow.fromResolved r) := by
  show fr ∈ (completeRecordsData merged).map FinalCompleteRow.fromComplete
      ++ (joinOnlyStudentSupervisorData (onlyStudentData merged)
          (onlySupervisorData merged)).map FinalCompleteRow.fromResolved ↔ _
  rw [List.mem_append, List.mem_map, List.mem_map]
  constructor
  · rintro (⟨c, hc, rfl⟩ | ⟨r, hr, rfl⟩)
    · exact Or.inl ⟨c, hc, rfl⟩
    · exact Or.inr ⟨r, hr, rfl⟩
  · rintro (⟨c, hc, rfl⟩ | ⟨r, hr, rfl⟩)
    · exact Or.inl ⟨c, hc, rfl⟩
    · exact Or.inr ⟨r, hr, rfl⟩

theorem mem_processData_finalOnlyStudent {merged : List MergedRow} {t : StuOnlyRow} :
    t ∈ (processData merged).finalOnlyStudent ↔
      t ∈ onlyStudentData merged
        ∧ ∀ r ∈ joinOnlyStudentSupervisorData (onlyStudentData merged)
            (onlySupervisorData merged), r.idxX ≠ t.idx := by
  show t ∈ (onlyStudentData merged).filter _ ↔ _
  rw [List.mem_filter]
  constructor
  · rintro ⟨h1, h2⟩
    refine ⟨h1, ?_⟩
    intro r hr hidx
    rw [Bool.not_eq_true', List.any_eq_false] at h2
    exact absurd (by simpa using hidx) (h2 r hr)
  · rintro ⟨h1, h2⟩
    refine ⟨h1, ?_⟩
    rw [Bool.not_eq_true', List.any_eq_false]
    intro r hr
    simpa using h2 r hr

theorem mem_processData_finalOnlySupervisor {merged : List MergedRow} {u : SupOnlyRow} :
    u ∈ (processData merged).finalOnlySupervisor ↔
      u ∈ onlySupervisorData merged
        ∧ ∀ r ∈ joinOnlyStudentSupervisorData (onlyStudentData merged)
            (onlySupervisorData merged), r.idxY ≠ u.idx := by
  show u ∈ (onlySupervisorData merged).filter _ ↔ _
  rw [List.mem_filter]
  constructor
  · rintro ⟨h1, h2⟩
    refine ⟨h1, ?_⟩
    intro r hr hidx
    rw [Bool.not_eq_true', List.any_eq_false] at h2
    exact absurd (by simpa using hidx) (h2 r hr)
  · rintro ⟨h1, h2⟩
    refine ⟨h1, ?_⟩
    rw [Bool.not_eq_true', List.any_eq_false]
    intro r hr
    simpa using h2 r hr

theorem find?_congr {α : Type _} {l : List α} {p q : α → Bool}
    (h : ∀ a ∈ l, p a = q a) : l.find? p = l.find? q := by
  induction l with
  | nil => rfl
  | cons a l ih =>
    have ha := h a (List.mem_cons_self a l)
    by_cases hp : p a
    · rw [List.find?_cons_of_pos _ hp, List.find?_cons_of_pos _ (by rw [← ha]; exact hp)]
    · rw [List.find?_cons_of_neg _ hp, List.find?_cons_of_neg _ (by rw [← ha]; exact hp)]
      exact ih fun b hb => h b (List.mem_cons_of_mem _ hb)

theorem supKey4Cols_eq_of_sup {r : MergedRow} {q : Nat × SupervisorRow}
    (h : r.sup = some q) : supKey4Cols r = supKey4 q.2 := by
  rcases r with ⟨ri, rs⟩
  cases h
  rfl

theorem internKey4Cols_eq_of_intern {r : MergedRow} {q : Nat × InternRow}
    (h : r.intern = some q) : internKey4Cols r = internKey4 q.2 := by
  rcases r with ⟨ri, rs⟩
  cases h
  rfl

/-- Rows accepted by the complete-records filter of a join have equal
intern-side and supervisor-side key columns. -/
theorem completeFiltered_key_eq {xs : List InternRow} {ys : List SupervisorRow}
    {u : CompleteRow} (hu : u ∈ completeFiltered (outerJoin xs ys)) :
    supKey4Cols u.row = internKey4Cols u.row := by
  obtain ⟨henum, hcols⟩ := mem_completeFiltered.mp hu
  have hmem : u.row ∈ outerJoin xs ys := List.getElem?_mem (mem_enumFrom_zero.mp henum)
  rcases outerJoin_shape hmem with ⟨ix, jy, heq, _, _, hk⟩ | ⟨ix, heq, _, _⟩
    | ⟨jy, heq, _, _⟩
  · rw [heq, supKey4Cols_some, internKey4Cols_some, hk]
  · rw [heq] at hcols
    simp [completeCols, supColsPresent_none] at hcols
  · rw [heq] at hcols
    simp [completeCols, internColsPresent_none] at hcols

/-- C7: each partition deduplicates on its four key fields keeping the
first occurrence in join order: in the complete partition, among rows
sharing the same normalized 4-part key only the earliest filtered row is
retained (kept rows have pairwise distinct keys); in the only-supervisor
partition, supervisor submissions with identical normalized 4-key fields
collapse to the first-encountered filtered row. -/
theorem partition_dedup_first_occurrence (xs : List InternRow) (ys : List SupervisorRow) :
    (∀ t ∈ completeRecordsData (outerJoin xs ys),
        (completeFiltered (outerJoin xs ys)).find?
          (fun u => decide (internKey4Cols u.row = internKey4Cols t.row)) = some t)
    ∧ ((completeRecordsData (outerJoin xs ys)).Pairwise
        fun a b => internKey4Cols a.row ≠ internKey4Cols b.row)
    ∧ (∀ u ∈ onlySupervisorData (outerJoin xs ys),
        (supervisorFiltered (outerJoin xs ys)).find?
          (fun p => decide (supKey4Cols p.2 = supKey4 u.row))
          = some (u.idx, (⟨none, some (u.src, u.row)⟩ : MergedRow)))
    ∧ ((onlySupervisorData (outerJoin xs ys)).Pairwise
        fun a b => supKey4 a.row ≠ supKey4 b.row) := by
  refine ⟨?_, ?_, ?_, ?_⟩
  · intro t ht
    have hc := find?_eq_of_mem_dedupByKey ht
    rw [← hc]
    apply find?_congr
    intro u hu
    have h1 := completeFiltered_key_eq hu
    have h2 := completeFiltered_key_eq (mem_of_mem_dedupByKey ht)
    rw [decide_eq_decide]
    unfold key8Cols
    constructor
    · intro h
      rw [h, h1, h2, h]
    · intro h
      have := congrArg Prod.fst h
      simpa using this
  · have hp := dedupByKey_pairwise (fun t : CompleteRow => key8Cols t.row) []
      (completeFiltered (outerJoin xs ys))
    refine hp.imp_of_mem ?_
    intro a b ha hb hR heq
    apply hR
    unfold key8Cols
    rw [completeFiltered_key_eq (mem_of_mem_dedupByKey ha),
      completeFiltered_key_eq (mem_of_mem_dedupByKey hb), heq]
  · intro u hu
    exact find?_eq_of_mem_dedupByKey (onlySupervisorData_elim hu).1
  · have hp := dedupByKey_pairwise (fun p : Nat × MergedRow => supKey4Cols p.2) []
      (supervisorFiltered (outerJoin xs ys))
    refine List.pairwise_filterMap.mpr (hp.imp ?_)
    intro p p' hne b hb b' hb'
    cases hq : p.2.sup with
    | none => rw [hq] at hb; simp at hb
    | some q =>
      cases hq' : p'.2.sup with
      | none => rw [hq'] at hb'; simp at hb'
      | some q' =>
        rw [hq] at hb
        rw [hq'] at hb'
        simp only [Option.map_some', Option.mem_def, Option.some.injEq] at hb hb'
        intro hkeys
        apply hne
        rw [supKey4Cols_eq_of_sup hq, supKey4Cols_eq_of_sup hq']
        have hbrow : b.row = q.2 := by rw [← hb]
        have hbrow' : b'.row = q'.2 := by rw [← hb']
        rw [← hbrow, ← hbrow']
        exact hkeys

/-- C5: every `idx` carried by the complete, only-student, only-supervisor
and resolved tables refers to the same numbering, the zero-based position
of the row in the merged table from which each partition was derived: the
row found at that position carries exactly the recorded content.  In
particular the values used for exclusion by the aggregation step (`idx_x`
and `idx_y` of the resolved table against `idx` of the "only" tables) all
reference the pre-resolution merged table state. -/
theorem rowId_is_join_position (merged : List MergedRow) :
    (∀ t ∈ completeRecordsData merged, merged[t.idx]? = some t.row)
    ∧ (∀ t ∈ onlyStudentData merged,
        ∃ m, merged[t.idx]? = some m ∧ m.intern = some (t.src, t.row))
    ∧ (∀ u ∈ onlySupervisorData merged,
        ∃ m, merged[u.idx]? = some m ∧ m.sup = some (u.src, u.row))
    ∧ (∀ r ∈ joinOnlyStudentSupervisorData (onlyStudentData merged)
          (onlySupervisorData merged),
        (∃ m, merged[r.idxX]? = some m ∧ m.intern = some (r.srcX, r.rowX))
        ∧ ∃ m, merged[r.idxY]? = some m ∧ m.sup = some (r.srcY, r.rowY)) := by
  have h2 : ∀ t ∈ onlyStudentData merged,
      ∃ m, merged[t.idx]? = some m ∧ m.intern = some (t.src, t.row) := by
    intro t ht
    obtain ⟨p, hp, hidx, hintern⟩ := mem_onlyStudentData.mp ht
    have hpf := (mem_studentFiltered.mp (mem_of_mem_dedupByKey hp)).1
    refine ⟨p.2, ?_, hintern⟩
    rw [← hidx]
    exact mem_enumFrom_zero.mp hpf
  have h3 : ∀ u ∈ onlySupervisorData merged,
      ∃ m, merged[u.idx]? = some m ∧ m.sup = some (u.src, u.row) := by
    intro u hu
    obtain ⟨p, hp, hidx, hsup⟩ := mem_onlySupervisorData.mp hu
    have hpf := (mem_supervisorFiltered.mp (mem_of_mem_dedupByKey hp)).1
    refine ⟨p.2, ?_, hsup⟩
    rw [← hidx]
    exact mem_enumFrom_zero.mp hpf
  refine ⟨?_, h2, h3, ?_⟩
  · intro t ht
    have hcf := (mem_completeFiltered.mp (mem_of_mem_dedupByKey ht)).1
    exact mem_enumFrom_zero.mp hcf
  · intro r hr
    obtain ⟨t, ht, u, hu, _, rfl⟩ := mem_joinOnly.mp hr
    exact ⟨h2 t ht, h3 u hu⟩

theorem filter_flatMap {α β : Type _} (l : List α) (f : α → List β) (q : β → Bool) :
    (l.flatMap f).filter q = l.flatMap fun a => (f a).filter q := by
  induction l with
  | nil => rfl
  | cons a l ih => simp only [List.flatMap_cons, List.filter_append, ih]

theorem flatMap_of_filter_singleton {α β : Type _} {l : List α} {g : α → Bool} {a : α}
    (h : l.filter g = [a]) {f : α → List β}
    (hf : ∀ b ∈ l, g b = false → f b = []) : l.flatMap f = f a := by
  induction l with
  | nil => simp at h
  | cons b l ih =>
    by_cases hb : g b
    · rw [List.filter_cons_of_pos hb] at h
      injection h with h1 h2
      rw [List.flatMap_cons]
      have hnil : l.flatMap f = [] := by
        rw [List.flatMap_eq_nil_iff]
        intro c hc
        have hgc : g c = false := by
          have := List.filter_eq_nil_iff.mp h2
          simpa using this c hc
        exact hf c (List.mem_cons_of_mem _ hc) hgc
      rw [hnil, h1, List.append_nil]
    · rw [List.filter_cons_of_neg hb] at h
      rw [List.flatMap_cons, hf b (List.mem_cons_self _ _) (by simpa using hb),
        List.nil_append]
      exact ih h fun c hc hgc => hf c (List.mem_cons_of_mem _ hc) hgc

/-- C4: when the only-students table has exactly one row t with student
name K and the only-supervisor table has exactly one row u reporting
intern name K, the secondary inner join produces exactly one resolved row
pairing them; that pair enters the final complete output, and t's `idx`
is excluded from the final only-students output while u's `idx` is
excluded from the final only-supervisor output. -/
theorem secondary_resolution_recovery (merged : List MergedRow) (K : Key2)
    (t : StuOnlyRow) (u : SupOnlyRow)
    (hos : (onlyStudentData merged).filter (fun v => decide (stuKey2 v = K)) = [t])
    (hosup : (onlySupervisorData merged).filter
      (fun w => decide (supOnlyKey2 w = K)) = [u]) :
    ((joinOnlyStudentSupervisorData (onlyStudentData merged)
        (onlySupervisorData merged)).filter (fun r => decide (resolvedKey2 r = K))
      = [ResolvedRow.mk t.idx t.src t.row u.idx u.src u.row])
    ∧ FinalCompleteRow.fromResolved
        (ResolvedRow.mk t.idx t.src t.row u.idx u.src u.row)
          ∈ (processData merged).finalComplete
    ∧ (∀ v ∈ (processData merged).finalOnlyStudent, v.idx ≠ t.idx)
    ∧ (∀ w ∈ (processData merged).finalOnlySupervisor, w.idx ≠ u.idx) := by
  have htmem : t ∈ (onlyStudentData merged).filter (fun v => decide (stuKey2 v = K)) := by
    rw [hos]
    exact List.mem_singleton_self t
  have hts : stuKey2 t = K := by
    simpa using (List.mem_filter.mp htmem).2
  have humem : u ∈ (onlySupervisorData merged).filter
      (fun w => decide (supOnlyKey2 w = K)) := by
    rw [hosup]
    exact List.mem_singleton_self u
  have hus : supOnlyKey2 u = K := by
    simpa using (List.mem_filter.mp humem).2
  have hfilter : ((joinOnlyStudentSupervisorData (onlyStudentData merged)
      (onlySupervisorData merged)).filter (fun r => decide (resolvedKey2 r = K)))
      = [ResolvedRow.mk t.idx t.src t.row u.idx u.src u.row] := by
    unfold joinOnlyStudentSupervisorData
    rw [filter_flatMap]
    rw [flatMap_of_filter_singleton hos (f := fun t' =>
      (((onlySupervisorData merged).filter
        (fun u' => decide (supOnlyKey2 u' = stuKey2 t'))).map
          fun u' => ResolvedRow.mk t'.idx t'.src t'.row u'.idx u'.src u'.row).filter
        (fun r => decide (resolvedKey2 r = K)))]
    · have hall : ∀ r ∈ ((onlySupervisorData merged).filter
          (fun u' => decide (supOnlyKey2 u' = stuKey2 t))).map
            fun u' => ResolvedRow.mk t.idx t.src t.row u'.idx u'.src u'.row,
          decide (resolvedKey2 r = K) = true := by
        intro r hr
        rw [List.mem_map] at hr
        obtain ⟨u', _, rfl⟩ := hr
        simp only [resolvedKey2, decide_eq_true_eq]
        exact hts
      rw [List.filter_eq_self.mpr hall]
      simp only [hts]
      rw [hosup]
      rfl
    · intro v _ hgv
      rw [List.filter_eq_nil_iff]
      intro r hr
      rw [List.mem_map] at hr
      obtain ⟨u', _, rfl⟩ := hr
      simp only [resolvedKey2, decide_eq_true_eq]
      intro hK
      rw [show ((v.row.stuFirst, v.row.stuLast) : Key2) = stuKey2 v from rfl] at hK
      rw [hK] at hgv
      simp at hgv
  have hresmem : ResolvedRow.mk t.idx t.src t.row u.idx u.src u.row
      ∈ joinOnlyStudentSupervisorData (onlyStudentData merged)
        (onlySupervisorData merged) := by
    apply List.mem_of_mem_filter (p := fun r => decide (resolvedKey2 r = K))
    rw [hfilter]
    exact List.mem_singleton_self _
  refine ⟨hfilter, ?_, ?_, ?_⟩
  · exact mem_processData_finalComplete.mpr (Or.inr ⟨_, hresmem, rfl⟩)
  · intro v hv hvidx
    have h2 := (mem_processData_finalOnlyStudent.mp hv).2
    exact h2 _ hresmem hvidx.symm
  · intro w hw hwidx
    have h2 := (mem_processData_finalOnlySupervisor.mp hw).2
    exact h2 _ hresmem hwidx.symm

/-- C8 counterexample: after `merge_datasets` returns, the caller-visible
intern table is not unchanged — its name columns hold the lowercased,
trimmed values instead of the original strings. -/
theorem merge_mutates_inputs_counterexample :
    (mergeDatasets [rawAnnIntern] []).1 ≠ [rawAnnIntern]
    ∧ (mergeDatasets [rawAnnIntern] []).1
        = [⟨0, none, some [97, 110, 110], some [108, 101, 101],
            some [98, 111, 98], some [107, 105, 109], []⟩] :=
  ⟨by decide, by decide⟩

/-- C8 amended: `merge_datasets` normalizes the four name columns of each
input table in place: after the call each input table equals its
normalized image — name columns lowercased and trimmed with nulls
preserved, every other column unchanged — rather than being left
unchanged. -/
theorem merge_normalizes_inputs_in_place (xs : List InternRow)
    (ys : List SupervisorRow) :
    (mergeDatasets xs ys).1 = xs.map normalizeIntern
    ∧ (mergeDatasets xs ys).2.1 = ys.map normalizeSupervisor
    ∧ (∀ r : InternRow,
        (normalizeIntern r).recordedDate = r.recordedDate
        ∧ (normalizeIntern r).intTitle = r.intTitle
        ∧ (normalizeIntern r).ssSelf = r.ssSelf
        ∧ (normalizeIntern r).stuFirst = normOpt r.stuFirst
        ∧ (normalizeIntern r).stuLast = normOpt r.stuLast
        ∧ (normalizeIntern r).supLinkFirst = normOpt r.supLinkFirst
        ∧ (normalizeIntern r).supLinkLast = normOpt r.supLinkLast)
    ∧ (∀ r : SupervisorRow,
        (normalizeSupervisor r).recordedDate = r.recordedDate
        ∧ (normalizeSupervisor r).ssSup = r.ssSup
        ∧ (normalizeSupervisor r).improveText = r.improveText
        ∧ (normalizeSupervisor r).strengthText = r.strengthText
        ∧ (normalizeSupervisor r).supFirst = normOpt r.supFirst
        ∧ (normalizeSupervisor r).supLast = normOpt r.supLast
        ∧ (normalizeSupervisor r).firstNameIntern = normOpt r.firstNameIntern
        ∧ (normalizeSupervisor r).lastNameIntern = normOpt r.lastNameIntern) :=
  ⟨rfl, rfl, fun _ => ⟨rfl, rfl, rfl, rfl, rfl, rfl, rfl⟩,
    fun _ => ⟨rfl, rfl, rfl, rfl, rfl, rfl, rfl, rfl⟩⟩

/-- C9: on the concrete one-row tables, the pipeline emits exactly one
final complete row carrying both 27-rating sets and the feedback texts
"ok" and "great", and both "only" outputs are empty. -/
theorem concrete_complete_scenario :
    pipeline [annIntern] [bobSup] =
      { finalComplete := [FinalCompleteRow.fromComplete ⟨0,
          ⟨some (0, ⟨0, none, some [97, 110, 110], some [108, 101, 101],
              some [98, 111, 98], some [107, 105, 109], List.range' 1 27⟩),
           some (0, ⟨0, some [98, 111, 98], some [107, 105, 109],
              some [97, 110, 110], some [108, 101, 101], List.range' 1 27,
              some [111, 107], some [103, 114, 101, 97, 116]⟩)⟩⟩]
        finalOnlyStudent := []
        finalOnlySupervisor := [] } := by decide

theorem intern_side_of_present {r : MergedRow} (h : internColsPresent r = true) :
    ∃ q, r.intern = some q := by
  rcases r with ⟨ri, rs⟩
  cases ri with
  | none => rw [internColsPresent_none] at h; exact Bool.noConfusion h
  | some q => exact ⟨q, rfl⟩

theorem sup_side_of_present {r : MergedRow} (h : supColsPresent r = true) :
    ∃ q, r.sup = some q := by
  rcases r with ⟨ri, rs⟩
  cases rs with
  | none => rw [supColsPresent_none] at h; exact Bool.noConfusion h
  | some q => exact ⟨q, rfl⟩

theorem onlyStudentData_idx_inj {merged : List MergedRow} {t t' : StuOnlyRow}
    (ht : t ∈ onlyStudentData merged) (ht' : t' ∈ onlyStudentData merged)
    (h : t.idx = t'.idx) : t = t' := by
  obtain ⟨p, hp, hidx, hi⟩ := mem_onlyStudentData.mp ht
  obtain ⟨p', hp', hidx', hi'⟩ := mem_onlyStudentData.mp ht'
  have he : p ∈ enumFrom 0 merged :=
    (mem_studentFiltered.mp (mem_of_mem_dedupByKey hp)).1
  have he' : p' ∈ enumFrom 0 merged :=
    (mem_studentFiltered.mp (mem_of_mem_dedupByKey hp')).1
  have hfst : p.1 = p'.1 := by rw [hidx, h, ← hidx']
  have hsnd : p.2 = p'.2 := by
    have h2 : (p.1, p'.2) ∈ enumFrom 0 merged := by rw [hfst]; exact he'
    exact enumFrom_inj he h2
  have hpair : (t.src, t.row) = (t'.src, t'.row) :=
    Option.some.inj (by rw [← hi, hsnd, hi'])
  have hsrc : t.src = t'.src := congrArg Prod.fst hpair
  have hrow : t.row = t'.row := congrArg Prod.snd hpair
  calc t = ⟨t.idx, t.src, t.row⟩ := rfl
    _ = ⟨t'.idx, t'.src, t'.row⟩ := by rw [h, hsrc, hrow]
    _ = t' := rfl

theorem onlySupervisorData_idx_inj {merged : List MergedRow} {u u' : SupOnlyRow}
    (hu : u ∈ onlySupervisorData merged) (hu' : u' ∈ onlySupervisorData merged)
    (h : u.idx = u'.idx) : u = u' := by
  obtain ⟨p, hp, hidx, hi⟩ := mem_onlySupervisorData.mp hu
  obtain ⟨p', hp', hidx', hi'⟩ := mem_onlySupervisorData.mp hu'
  have he : p ∈ enumFrom 0 merged :=
    (mem_supervisorFiltered.mp (mem_of_mem_dedupByKey hp)).1
  have he' : p' ∈ enumFrom 0 merged :=
    (mem_supervisorFiltered.mp (mem_of_mem_dedupByKey hp')).1
  have hfst : p.1 = p'.1 := by rw [hidx, h, ← hidx']
  have hsnd : p.2 = p'.2 := by
    have h2 : (p.1, p'.2) ∈ enumFrom 0 merged := by rw [hfst]; exact he'
    exact enumFrom_inj he h2
  have hpair : (u.src, u.row) = (u'.src, u'.row) :=
    Option.some.inj (by rw [← hi, hsnd, hi'])
  have hsrc : u.src = u'.src := congrArg Prod.fst hpair
  have hrow : u.row = u'.row := congrArg Prod.snd hpair
  calc u = ⟨u.idx, u.src, u.row⟩ := rfl
    _ = ⟨u'.idx, u'.src, u'.row⟩ := by rw [h, hsrc, hrow]
    _ = u' := rfl

theorem onlyStudentData_src_inj {xs : List InternRow} {ys : List SupervisorRow}
    {t t' : StuOnlyRow} (ht : t ∈ onlyStudentData (outerJoin xs ys))
    (ht' : t' ∈ onlyStudentData (outerJoin xs ys)) (h : t.src = t'.src) : t = t' := by
  obtain ⟨hd, hx, _, _⟩ := onlyStudentData_elim ht
  obtain ⟨hd', hx', _, _⟩ := onlyStudentData_elim ht'
  have hrow : t.row = t'.row := by
    have h2 : (t.src, t'.row) ∈ enumFrom 0 xs := by rw [h]; exact hx'
    exact enumFrom_inj hx h2
  have hkeys : internKey4Cols (⟨some (t.src, t.row), none⟩ : MergedRow)
      = internKey4Cols (⟨some (t'.src, t'.row), none⟩ : MergedRow) := by
    rw [internKey4Cols_some, internKey4Cols_some]
    show internKey4 t.row = internKey4 t'.row
    rw [hrow]
  have heq := dedupByKey_key_inj hd hd' hkeys
  have hidx : t.idx = t'.idx := congrArg Prod.fst heq
  calc t = ⟨t.idx, t.src, t.row⟩ := rfl
    _ = ⟨t'.idx, t'.src, t'.row⟩ := by rw [hidx, h, hrow]
    _ = t' := rfl

theorem onlySupervisorData_src_inj {xs : List InternRow} {ys : List SupervisorRow}
    {u u' : SupOnlyRow} (hu : u ∈ onlySupervisorData (outerJoin xs ys))
    (hu' : u' ∈ onlySupervisorData (outerJoin xs ys)) (h : u.src = u'.src) : u = u' := by
  obtain ⟨hd, hy, _, _⟩ := onlySupervisorData_elim hu
  obtain ⟨hd', hy', _, _⟩ := onlySupervisorData_elim hu'
  have hrow : u.row = u'.row := by
    have h2 : (u.src, u'.row) ∈ enumFrom 0 ys := by rw [h]; exact hy'
    exact enumFrom_inj hy h2
  have hkeys : supKey4Cols (⟨none, some (u.src, u.row)⟩ : MergedRow)
      = supKey4Cols (⟨none, some (u'.src, u'.row)⟩ : MergedRow) := by
    rw [supKey4Cols_some, supKey4Cols_some]
    show supKey4 u.row = supKey4 u'.row
    rw [hrow]
  have heq := dedupByKey_key_inj hd hd' hkeys
  have hidx : u.idx = u'.idx := congrArg Prod.fst heq
  calc u = ⟨u.idx, u.src, u.row⟩ := rfl
    _ = ⟨u'.idx, u'.src, u'.row⟩ := by rw [hidx, h, hrow]
    _ = u' := rfl

theorem pairwise_key_pos_eq {α κ : Type _} {l : List α} {key : α → κ}
    (hd : l.Pairwise fun a b => key a ≠ key b) {i j : Nat} {a b : α}
    (ha : l[i]? = some a) (hb : l[j]? = some b) (hk : key a = key b) : i = j := by
  have hi : i < l.length := by
    by_contra hc
    rw [List.getElem?_eq_none (by omega)] at ha
    exact Option.noConfusion ha
  have hj : j < l.length := by
    by_contra hc
    rw [List.getElem?_eq_none (by omega)] at hb
    exact Option.noConfusion hb
  have ha2 : l[i] = a := by
    rw [List.getElem?_eq_getElem hi] at ha
    exact Option.some.inj ha
  have hb2 : l[j] = b := by
    rw [List.getElem?_eq_getElem hj] at hb
    exact Option.some.inj hb
  rcases Nat.lt_trichotomy i j with h | h | h
  · have := List.pairwise_iff_getElem.mp hd i j hi hj h
    rw [ha2, hb2] at this
    exact absurd hk this
  · exact h
  · have := List.pairwise_iff_getElem.mp hd j i hj hi h
    rw [ha2, hb2] at this
    exact absurd hk.symm this

theorem enumFrom_zero_snd_eq {α : Type _} {l : List α} {i : Nat} {a b : α}
    (h1 : (i, a) ∈ enumFrom 0 l) (h2 : l[i]? = some b) : a = b :=
  Option.some.inj ((mem_enumFrom_zero.mp h1).symm.trans h2)

/-- C1 counterexample: with two identical intern submissions and no
supervisor submissions, the second submission appears in none of the
three final outputs although it is not a partial-key (silently dropped)
submission — it is lost to the first-occurrence deduplication, a case the
claim's exception clause does not cover. -/
theorem duplicate_submission_lost_counterexample :
    ¬internInFinalComplete (pipeline [dupIntern, dupIntern] []) 1
    ∧ ¬internInFinalOnlyStudent (pipeline [dupIntern, dupIntern] []) 1
    ∧ (pipeline [dupIntern, dupIntern] []).finalOnlySupervisor = []
    ∧ key4Present (internKey4 (normalizeIntern dupIntern)) = true
    ∧ ([dupIntern, dupIntern].map normalizeIntern)[1]?
        = some (normalizeIntern dupIntern) :=
  ⟨by decide, by decide, by decide, by decide, by decide⟩

/-- C1 amended: with respect to its own side, no original submission
appears in two of the three final outputs (an intern submission can only
appear in FinalComplete or FinalOnlyIntern, never both; a supervisor
submission only in FinalComplete or FinalOnlySupervisor, never both; the
remaining output carries no columns of the other side at all); a
submission whose normalized key has a null component (the silent
partial-key drop) appears in none of them; and provided the normalized
4-part keys are pairwise distinct within each input table — so that no
submission is collapsed by the first-occurrence deduplication — every
full-key submission appears in exactly one of them. -/
theorem submission_final_membership (xs : List InternRow) (ys : List SupervisorRow) :
    (∀ i, ¬(internInFinalComplete (pipeline xs ys) i
        ∧ internInFinalOnlyStudent (pipeline xs ys) i))
    ∧ (∀ j, ¬(supInFinalComplete (pipeline xs ys) j
        ∧ supInFinalOnlySupervisor (pipeline xs ys) j))
    ∧ (∀ i x, (xs.map normalizeIntern)[i]? = some x →
        key4Present (internKey4 x) = false →
          ¬internInFinalComplete (pipeline xs ys) i
          ∧ ¬internInFinalOnlyStudent (pipeline xs ys) i)
    ∧ (∀ j y, (ys.map normalizeSupervisor)[j]? = some y →
        key4Present (supKey4 y) = false →
          ¬supInFinalComplete (pipeline xs ys) j
          ∧ ¬supInFinalOnlySupervisor (pipeline xs ys) j)
    ∧ (((xs.map normalizeIntern).Pairwise fun a b => internKey4 a ≠ internKey4 b) →
       ((ys.map normalizeSupervisor).Pairwise fun a b => supKey4 a ≠ supKey4 b) →
        (∀ i x, (xs.map normalizeIntern)[i]? = some x →
            key4Present (internKey4 x) = true →
            internInFinalComplete (pipeline xs ys) i
              ∨ internInFinalOnlyStudent (pipeline xs ys) i)
        ∧ (∀ j y, (ys.map normalizeSupervisor)[j]? = some y →
            key4Present (supKey4 y) = true →
            supInFinalComplete (pipeline xs ys) j
              ∨ supInFinalOnlySupervisor (pipeline xs ys) j)) := by
  have hM : pipeline xs ys
      = processData (outerJoin (xs.map normalizeIntern)
          (ys.map normalizeSupervisor)) := rfl
  rw [hM]
  have hA : ∀ i, ¬(internInFinalComplete (processData (outerJoin
      (xs.map normalizeIntern) (ys.map normalizeSupervisor))) i
      ∧ internInFinalOnlyStudent (processData (outerJoin
        (xs.map normalizeIntern) (ys.map normalizeSupervisor))) i) := by
    rintro i ⟨⟨fr, hfr, hsrc⟩, t, htf, htsrc⟩
    obtain ⟨htos, htex⟩ := mem_processData_finalOnlyStudent.mp htf
    obtain ⟨_, hxt, hmt, _⟩ := onlyStudentData_elim htos
    rcases mem_processData_finalComplete.mp hfr with ⟨c, hc, rfl⟩ | ⟨r, hr, rfl⟩
    · obtain ⟨ix, jy, hceq, hxc, hyc, hkc, _, _⟩ := completeRecordsData_elim hc
      have hsrc2 : c.row.intern.map Prod.fst = some i := hsrc
      rw [hceq] at hsrc2
      have hix1 : ix.1 = i := by simpa using hsrc2
      have hrow_eq : ix.2 = t.row := by
        have h1 : ((i, ix.2) : Nat × InternRow)
            ∈ enumFrom 0 (xs.map normalizeIntern) := by
          rw [← hix1]
          exact hxc
        have h2 : ((i, t.row) : Nat × InternRow)
            ∈ enumFrom 0 (xs.map normalizeIntern) := by
          rw [← htsrc]
          exact hxt
        exact enumFrom_inj h1 h2
      have hmatch : jy ∈ internMatches (enumFrom 0 (ys.map normalizeSupervisor)) ix.2 :=
        List.mem_filter.mpr ⟨hyc, by simpa using hkc⟩
      rw [hrow_eq, hmt] at hmatch
      exact absurd hmatch (List.not_mem_nil jy)
    · have hsrcX : r.srcX = i := Option.some.inj hsrc
      obtain ⟨t', ht', u', hu', _, rfl⟩ := mem_joinOnly.mp hr
      have ht'src : t'.src = i := hsrcX
      have hteq : t' = t := onlyStudentData_src_inj ht' htos (by rw [ht'src, htsrc])
      exact htex _ hr (by rw [hteq])
  have hB : ∀ j, ¬(supInFinalComplete (processData (outerJoin
      (xs.map normalizeIntern) (ys.map normalizeSupervisor))) j
      ∧ supInFinalOnlySupervisor (processData (outerJoin
        (xs.map normalizeIntern) (ys.map normalizeSupervisor))) j) := by
    rintro j ⟨⟨fr, hfr, hsrc⟩, u, huf, husrc⟩
    obtain ⟨huos, huex⟩ := mem_processData_finalOnlySupervisor.mp huf
    obtain ⟨_, hyu, hmu, _⟩ := onlySupervisorData_elim huos
    rcases mem_processData_finalComplete.mp hfr with ⟨c, hc, rfl⟩ | ⟨r, hr, rfl⟩
    · obtain ⟨ix, jy, hceq, hxc, hyc, hkc, _, _⟩ := completeRecordsData_elim hc
      have hsrc2 : c.row.sup.map Prod.fst = some j := hsrc
      rw [hceq] at hsrc2
      have hjy1 : jy.1 = j := by simpa using hsrc2
      have hrow_eq : jy.2 = u.row := by
        have h1 : ((j, jy.2) : Nat × SupervisorRow)
            ∈ enumFrom 0 (ys.map normalizeSupervisor) := by
          rw [← hjy1]
          exact hyc
        have h2 : ((j, u.row) : Nat × SupervisorRow)
            ∈ enumFrom 0 (ys.map normalizeSupervisor) := by
          rw [← husrc]
          exact hyu
        exact enumFrom_inj h1 h2
      have hmatch : ix ∈ supMatches (enumFrom 0 (xs.map normalizeIntern)) jy.2 :=
        List.mem_filter.mpr ⟨hxc, by simpa using hkc.symm⟩
      rw [hrow_eq, hmu] at hmatch
      exact absurd hmatch (List.not_mem_nil ix)
    · have hsrcY : r.srcY = j := Option.some.inj hsrc
      obtain ⟨t', ht', u', hu', _, rfl⟩ := mem_joinOnly.mp hr
      have hu'src : u'.src = j := hsrcY
      have hueq : u' = u := onlySupervisorData_src_inj hu' huos (by rw [hu'src, husrc])
      exact huex _ hr (by rw [hueq])
  refine ⟨hA, hB, ?_, ?_, ?_⟩
  · intro i x hx hkp
    constructor
    · rintro ⟨fr, hfr, hsrc⟩
      rcases mem_processData_finalComplete.mp hfr with ⟨c, hc, rfl⟩ | ⟨r, hr, rfl⟩
      · obtain ⟨ix, jy, hceq, hxc, _, _, hkpc, _⟩ := completeRecordsData_elim hc
        have hsrc2 : c.row.intern.map Prod.fst = some i := hsrc
        rw [hceq] at hsrc2
        have hix1 : ix.1 = i := by simpa using hsrc2
        have hxeq : ix.2 = x := enumFrom_zero_snd_eq (by rw [← hix1]; exact hxc) hx
        rw [hxeq, hkp] at hkpc
        exact Bool.noConfusion hkpc
      · have hsrcX : r.srcX = i := Option.some.inj hsrc
        obtain ⟨t', ht', _, _, _, rfl⟩ := mem_joinOnly.mp hr
        obtain ⟨_, hxt', _, hkt'⟩ := onlyStudentData_elim ht'
        have ht'src : t'.src = i := hsrcX
        have hxeq : t'.row = x := enumFrom_zero_snd_eq (by rw [← ht'src]; exact hxt') hx
        rw [hxeq, hkp] at hkt'
        exact Bool.noConfusion hkt'
    · rintro ⟨t, htf, htsrc⟩
      have htos := (mem_processData_finalOnlyStudent.mp htf).1
      obtain ⟨_, hxt, _, hkt⟩ := onlyStudentData_elim htos
      have hxeq : t.row = x := enumFrom_zero_snd_eq (by rw [← htsrc]; exact hxt) hx
      rw [hxeq, hkp] at hkt
      exact Bool.noConfusion hkt
  · intro j y hy hkp
    constructor
    · rintro ⟨fr, hfr, hsrc⟩
      rcases mem_processData_finalComplete.mp hfr with ⟨c, hc, rfl⟩ | ⟨r, hr, rfl⟩
      · obtain ⟨ix, jy, hceq, _, hyc, hkc, hkpc, _⟩ := completeRecordsData_elim hc
        have hsrc2 : c.row.sup.map Prod.fst = some j := hsrc
        rw [hceq] at hsrc2
        have hjy1 : jy.1 = j := by simpa using hsrc2
        have hyeq : jy.2 = y := enumFrom_zero_snd_eq (by rw [← hjy1]; exact hyc) hy
        rw [← hkc, hyeq, hkp] at hkpc
        exact Bool.noConfusion hkpc
      · have hsrcY : r.srcY = j := Option.some.inj hsrc
        obtain ⟨_, _, u', hu', _, rfl⟩ := mem_joinOnly.mp hr
        obtain ⟨_, hyu', _, hku'⟩ := onlySupervisorData_elim hu'
        have hu'src : u'.src = j := hsrcY
        have hyeq : u'.row = y := enumFrom_zero_snd_eq (by rw [← hu'src]; exact hyu') hy
        rw [hyeq, hkp] at hku'
        exact Bool.noConfusion hku'
    · rintro ⟨u, huf, husrc⟩
      have huos := (mem_processData_finalOnlySupervisor.mp huf).1
      obtain ⟨_, hyu, _, hku⟩ := onlySupervisorData_elim huos
      have hyeq : u.row = y := enumFrom_zero_snd_eq (by rw [← husrc]; exact hyu) hy
      rw [hyeq, hkp] at hku
      exact Bool.noConfusion hku
  · intro hdx hdy
    constructor
    · intro i x hx hkp
      have hxe : (i, x) ∈ enumFrom 0 (xs.map normalizeIntern) :=
        mem_enumFrom_zero.mpr hx
      by_cases hm : internMatches (enumFrom 0 (ys.map normalizeSupervisor)) x = []
      · have hr0 : (⟨some (i, x), none⟩ : MergedRow)
            ∈ outerJoin (xs.map normalizeIntern) (ys.map normalizeSupervisor) :=
          left_unmatched_mem_outerJoin hxe hm
        obtain ⟨idx0, hidx0⟩ := List.getElem?_of_mem hr0
        have henum0 : ((idx0, (⟨some (i, x), none⟩ : MergedRow)) : Nat × MergedRow)
            ∈ enumFrom 0 (outerJoin (xs.map normalizeIntern)
              (ys.map normalizeSupervisor)) := mem_enumFrom_zero.mpr hidx0
        have hsf : ((idx0, (⟨some (i, x), none⟩ : MergedRow)) : Nat × MergedRow)
            ∈ studentFiltered (outerJoin (xs.map normalizeIntern)
              (ys.map normalizeSupervisor)) := by
          refine mem_studentFiltered.mpr ⟨henum0, ?_, supColsAbsent_none _⟩
          rw [internColsPresent_some]
          exact hkp
        obtain ⟨p, hpd, hpkey⟩ := exists_mem_dedupByKey
          (fun p : Nat × MergedRow => internKey4Cols p.2) hsf (List.not_mem_nil _)
        have hpf := mem_studentFiltered.mp (mem_of_mem_dedupByKey hpd)
        obtain ⟨q, hq⟩ := intern_side_of_present hpf.2.1
        have hpM : p.2 ∈ outerJoin (xs.map normalizeIntern)
            (ys.map normalizeSupervisor) :=
          List.getElem?_mem (mem_enumFrom_zero.mp hpf.1)
        have hqe : ((q.1, q.2) : Nat × InternRow)
            ∈ enumFrom 0 (xs.map normalizeIntern) :=
          (join_row_cases hpM (show p.2.intern = some (q.1, q.2) by rw [hq])).1
        have hpkey2 : internKey4 q.2 = internKey4 x := by
          calc internKey4 q.2 = internKey4Cols p.2 :=
                (internKey4Cols_eq_of_intern hq).symm
            _ = internKey4Cols (⟨some (i, x), none⟩ : MergedRow) := hpkey
            _ = internKey4 x := rfl
        have hq1 : q.1 = i :=
          pairwise_key_pos_eq hdx (mem_enumFrom_zero.mp hqe) hx hpkey2
        have hq2 : q.2 = x := by
          have hget := mem_enumFrom_zero.mp hqe
          rw [hq1, hx] at hget
          exact (Option.some.inj hget).symm
        have hqix : q = (i, x) := by
          calc q = (q.1, q.2) := rfl
            _ = (i, x) := by rw [hq1, hq2]
        have htos : (⟨p.1, i, x⟩ : StuOnlyRow) ∈ onlyStudentData
            (outerJoin (xs.map normalizeIntern) (ys.map normalizeSupervisor)) :=
          mem_onlyStudentData.mpr ⟨p, hpd, rfl, by rw [hq, hqix]⟩
        by_cases hres : ∃ r ∈ joinOnlyStudentSupervisorData
            (onlyStudentData (outerJoin (xs.map normalizeIntern)
              (ys.map normalizeSupervisor)))
            (onlySupervisorData (outerJoin (xs.map normalizeIntern)
              (ys.map normalizeSupervisor))), r.idxX = p.1
        · obtain ⟨r, hrres, hridx⟩ := hres
          obtain ⟨t', ht', u', hu', _, rfl⟩ := mem_joinOnly.mp hrres
          have hteq : t' = ⟨p.1, i, x⟩ := onlyStudentData_idx_inj ht' htos hridx
          left
          refine ⟨FinalCompleteRow.fromResolved _,
            mem_processData_finalComplete.mpr (Or.inr ⟨_, hrres, rfl⟩), ?_⟩
          show some t'.src = some i
          rw [hteq]
        · right
          refine ⟨⟨p.1, i, x⟩,
            mem_processData_finalOnlyStudent.mpr ⟨htos, ?_⟩, rfl⟩
          intro r hr hreq
          exact hres ⟨r, hr, hreq⟩
      · obtain ⟨jy, hjy⟩ := List.exists_mem_of_ne_nil _ hm
        have hjf := List.mem_filter.mp hjy
        have hkjy : supKey4 jy.2 = internKey4 x := by simpa using hjf.2
        have hr0 : (⟨some (i, x), some jy⟩ : MergedRow)
            ∈ outerJoin (xs.map normalizeIntern) (ys.map normalizeSupervisor) :=
          pair_mem_outerJoin hxe hjf.1 hkjy
        obtain ⟨idx0, hidx0⟩ := List.getElem?_of_mem hr0
        have henum0 : ((idx0, (⟨some (i, x), some jy⟩ : MergedRow)) : Nat × MergedRow)
            ∈ enumFrom 0 (outerJoin (xs.map normalizeIntern)
              (ys.map normalizeSupervisor)) := mem_enumFrom_zero.mpr hidx0
        have hcc : completeCols (⟨some (i, x), some jy⟩ : MergedRow) = true := by
          unfold completeCols
          rw [internColsPresent_some, supColsPresent_some, hkjy]
          show (key4Present (internKey4 x) && key4Present (internKey4 x)) = true
          rw [hkp]
          rfl
        have hcf : (⟨idx0, ⟨some (i, x), some jy⟩⟩ : CompleteRow)
            ∈ completeFiltered (outerJoin (xs.map normalizeIntern)
              (ys.map normalizeSupervisor)) :=
          mem_completeFiltered.mpr ⟨henum0, hcc⟩
        obtain ⟨c, hcd, hckey⟩ := exists_mem_dedupByKey
          (fun t : CompleteRow => key8Cols t.row) hcf (List.not_mem_nil _)
        obtain ⟨ix', jy', hceq, hxc', _, _, _, _⟩ := completeRecordsData_elim hcd
        have hkint : internKey4 ix'.2 = internKey4 x := by
          have h1 : internKey4Cols c.row
              = internKey4Cols (⟨some (i, x), some jy⟩ : MergedRow) :=
            congrArg Prod.fst hckey
          calc internKey4 ix'.2 = internKey4Cols c.row := by
                rw [hceq, internKey4Cols_some]
            _ = internKey4Cols (⟨some (i, x), some jy⟩ : MergedRow) := h1
            _ = internKey4 x := rfl
        have hix'e : ((ix'.1, ix'.2) : Nat × InternRow)
            ∈ enumFrom 0 (xs.map normalizeIntern) := hxc'
        have hix'1 : ix'.1 = i :=
          pairwise_key_pos_eq hdx (mem_enumFrom_zero.mp hix'e) hx hkint
        left
        refine ⟨FinalCompleteRow.fromComplete c,
          mem_processData_finalComplete.mpr (Or.inl ⟨c, hcd, rfl⟩), ?_⟩
        show c.row.intern.map Prod.fst = some i
        rw [hceq]
        simpa using hix'1
    · intro j y hy hkp
      have hye : (j, y) ∈ enumFrom 0 (ys.map normalizeSupervisor) :=
        mem_enumFrom_zero.mpr hy
      by_cases hm : supMatches (enumFrom 0 (xs.map normalizeIntern)) y = []
      · have hr0 : (⟨none, some (j, y)⟩ : MergedRow)
            ∈ outerJoin (xs.map normalizeIntern) (ys.map normalizeSupervisor) :=
          right_unmatched_mem_outerJoin hye hm
        obtain ⟨idx0, hidx0⟩ := List.getElem?_of_mem hr0
        have henum0 : ((idx0, (⟨none, some (j, y)⟩ : MergedRow)) : Nat × MergedRow)
            ∈ enumFrom 0 (outerJoin (xs.map normalizeIntern)
              (ys.map normalizeSupervisor)) := mem_enumFrom_zero.mpr hidx0
        have hsf : ((idx0, (⟨none, some (j, y)⟩ : MergedRow)) : Nat × MergedRow)
            ∈ supervisorFiltered (outerJoin (xs.map normalizeIntern)
              (ys.map normalizeSupervisor)) := by
          refine mem_supervisorFiltered.mpr ⟨henum0, ?_, internColsAbsent_none _⟩
          rw [supColsPresent_some]
          exact hkp
        obtain ⟨p, hpd, hpkey⟩ := exists_mem_dedupByKey
          (fun p : Nat × MergedRow => supKey4Cols p.2) hsf (List.not_mem_nil _)
        have hpf := mem_supervisorFiltered.mp (mem_of_mem_dedupByKey hpd)
        obtain ⟨q, hq⟩ := sup_side_of_present hpf.2.1
        have hpM : p.2 ∈ outerJoin (xs.map normalizeIntern)
            (ys.map normalizeSupervisor) :=
          List.getElem?_mem (mem_enumFrom_zero.mp hpf.1)
        have hqe : ((q.1, q.2) : Nat × SupervisorRow)
            ∈ enumFrom 0 (ys.map normalizeSupervisor) :=
          (join_row_cases_sup hpM (show p.2.sup = some (q.1, q.2) by rw [hq])).1
        have hpkey2 : supKey4 q.2 = supKey4 y := by
          calc supKey4 q.2 = supKey4Cols p.2 := (supKey4Cols_eq_of_sup hq).symm
            _ = supKey4Cols (⟨none, some (j, y)⟩ : MergedRow) := hpkey
            _ = supKey4 y := rfl
        have hq1 : q.1 = j :=
          pairwise_key_pos_eq hdy (mem_enumFrom_zero.mp hqe) hy hpkey2
        have hq2 : q.2 = y := by
          have hget := mem_enumFrom_zero.mp hqe
          rw [hq1, hy] at hget
          exact (Option.some.inj hget).symm
        have hqjy : q = (j, y) := by
          calc q = (q.1, q.2) := rfl
            _ = (j, y) := by rw [hq1, hq2]
        have huos : (⟨p.1, j, y⟩ : SupOnlyRow) ∈ onlySupervisorData
            (outerJoin (xs.map normalizeIntern) (ys.map normalizeSupervisor)) :=
          mem_onlySupervisorData.mpr ⟨p, hpd, rfl, by rw [hq, hqjy]⟩
        by_cases hres : ∃ r ∈ joinOnlyStudentSupervisorData
            (onlyStudentData (outerJoin (xs.map normalizeIntern)
              (ys.map normalizeSupervisor)))
            (onlySupervisorData (outerJoin (xs.map normalizeIntern)
              (ys.map normalizeSupervisor))), r.idxY = p.1
        · obtain ⟨r, hrres, hridx⟩ := hres
          obtain ⟨t', ht', u', hu', _, rfl⟩ := mem_joinOnly.mp hrres
          have hueq : u' = ⟨p.1, j, y⟩ := onlySupervisorData_idx_inj hu' huos hridx
          left
          refine ⟨FinalCompleteRow.fromResolved _,
            mem_processData_finalComplete.mpr (Or.inr ⟨_, hrres, rfl⟩), ?_⟩
          show some u'.src = some j
          rw [hueq]
        · right
          refine ⟨⟨p.1, j, y⟩,
            mem_processData_finalOnlySupervisor.mpr ⟨huos, ?_⟩, rfl⟩
          intro r hr hreq
          exact hres ⟨r, hr, hreq⟩
      · obtain ⟨ix, hix⟩ := List.exists_mem_of_ne_nil _ hm
        have hif := List.mem_filter.mp hix
        have hkix : internKey4 ix.2 = supKey4 y := by simpa using hif.2
        have hr0 : (⟨some ix, some (j, y)⟩ : MergedRow)
            ∈ outerJoin (xs.map normalizeIntern) (ys.map normalizeSupervisor) :=
          pair_mem_outerJoin hif.1 hye (by
            show supKey4 y = internKey4 ix.2
            exact hkix.symm)
        obtain ⟨idx0, hidx0⟩ := List.getElem?_of_mem hr0
        have henum0 : ((idx0, (⟨some ix, some (j, y)⟩ : MergedRow)) : Nat × MergedRow)
            ∈ enumFrom 0 (outerJoin (xs.map normalizeIntern)
              (ys.map normalizeSupervisor)) := mem_enumFrom_zero.mpr hidx0
        have hcc : completeCols (⟨some ix, some (j, y)⟩ : MergedRow) = true := by
          unfold completeCols
          rw [internColsPresent_some, supColsPresent_some]
          show (key4Present (internKey4 ix.2) && key4Present (supKey4 y)) = true
          rw [hkix, hkp]
          rfl
        have hcf : (⟨idx0, ⟨some ix, some (j, y)⟩⟩ : CompleteRow)
            ∈ completeFiltered (outerJoin (xs.map normalizeIntern)
              (ys.map normalizeSupervisor)) :=
          mem_completeFiltered.mpr ⟨henum0, hcc⟩
        obtain ⟨c, hcd, hckey⟩ := exists_mem_dedupByKey
          (fun t : CompleteRow => key8Cols t.row) hcf (List.not_mem_nil _)
        obtain ⟨ix', jy', hceq, _, hyc', _, _, _⟩ := completeRecordsData_elim hcd
        have hksup : supKey4 jy'.2 = supKey4 y := by
          have h1 : supKey4Cols c.row
              = supKey4Cols (⟨some ix, some (j, y)⟩ : MergedRow) :=
            congrArg Prod.snd hckey
          calc supKey4 jy'.2 = supKey4Cols c.row := by
                rw [hceq, supKey4Cols_some]
            _ = supKey4Cols (⟨some ix, some (j, y)⟩ : MergedRow) := h1
            _ = supKey4 y := rfl
        have hjy'e : ((jy'.1, jy'.2) : Nat × SupervisorRow)
            ∈ enumFrom 0 (ys.map normalizeSupervisor) := hyc'
        have hjy'1 : jy'.1 = j :=
          pairwise_key_pos_eq hdy (mem_enumFrom_zero.mp hjy'e) hy hksup
        left
        refine ⟨FinalCompleteRow.fromComplete c,
          mem_processData_finalComplete.mpr (Or.inl ⟨c, hcd, rfl⟩), ?_⟩
        show c.row.sup.map Prod.fst = some j
        rw [hceq]
        simpa using hjy'1

/-- C2: every row of the primary outer-join output belongs to exactly one
of the four classes Complete, OnlyIntern, OnlySupervisor, or
silently-dropped partial key; the three partition classes are pairwise
disjoint and together with the dropped class they cover the join output. -/
theorem joinRow_exactly_one_class (xs : List InternRow) (ys : List SupervisorRow)
    (r : MergedRow) (_hr : r ∈ outerJoin xs ys) :
    (completeCols r = true ∨ onlyStudentPred r = true ∨ onlySupervisorPred r = true
        ∨ droppedPred r = true)
      ∧ ¬(completeCols r = true ∧ onlyStudentPred r = true)
      ∧ ¬(completeCols r = true ∧ onlySupervisorPred r = true)
      ∧ ¬(onlyStudentPred r = true ∧ onlySupervisorPred r = true)
      ∧ ¬(completeCols r = true ∧ droppedPred r = true)
      ∧ ¬(onlyStudentPred r = true ∧ droppedPred r = true)
      ∧ ¬(onlySupervisorPred r = true ∧ droppedPred r = true) := by
  refine ⟨?_, ?_, ?_, ?_, ?_, ?_, ?_⟩
  · by_cases h1 : completeCols r = true
    · exact Or.inl h1
    · by_cases h2 : onlyStudentPred r = true
      · exact Or.inr (Or.inl h2)
      · by_cases h3 : onlySupervisorPred r = true
        · exact Or.inr (Or.inr (Or.inl h3))
        · refine Or.inr (Or.inr (Or.inr ?_))
          simp only [droppedPred, Bool.not_eq_true']
          simp only [Bool.or_eq_false_iff]
          exact ⟨⟨Bool.not_eq_true _ ▸ h1, Bool.not_eq_true _ ▸ h2⟩,
            Bool.not_eq_true _ ▸ h3⟩
  · rintro ⟨h1, h2⟩
    simp only [completeCols, Bool.and_eq_true] at h1
    simp only [onlyStudentPred, Bool.and_eq_true] at h2
    exact sup_not_present_and_absent h1.2 h2.2
  · rintro ⟨h1, h2⟩
    simp only [completeCols, Bool.and_eq_true] at h1
    simp only [onlySupervisorPred, Bool.and_eq_true] at h2
    exact intern_not_present_and_absent h1.1 h2.2
  · rintro ⟨h1, h2⟩
    simp only [onlyStudentPred, Bool.and_eq_true] at h1
    simp only [onlySupervisorPred, Bool.and_eq_true] at h2
    exact intern_not_present_and_absent h1.1 h2.2
  · rintro ⟨h1, h2⟩
    simp only [droppedPred, Bool.not_eq_true', Bool.or_eq_false_iff] at h2
    exact absurd h1 (by simp [h2.1.1])
  · rintro ⟨h1, h2⟩
    simp only [droppedPred, Bool.not_eq_true', Bool.or_eq_false_iff] at h2
    exact absurd h1 (by simp [h2.1.2])
  · rintro ⟨h1, h2⟩
    simp only [droppedPred, Bool.not_eq_true', Bool.or_eq_false_iff] at h2
    exact absurd h1 (by simp [h2.2])

theorem joinRow_exactly_one_class_witness :
    completeCols (⟨some (0, dupIntern), none⟩ : MergedRow) = true
      ∨ onlyStudentPred (⟨some (0, dupIntern), none⟩ : MergedRow) = true
      ∨ onlySupervisorPred (⟨some (0, dupIntern), none⟩ : MergedRow) = true
      ∨ droppedPred (⟨some (0, dupIntern), none⟩ : MergedRow) = true :=
  (joinRow_exactly_one_class [dupIntern] [] ⟨some (0, dupIntern), none⟩ (by decide)).1

theorem merge_outer_join_semantics_witness :
    ∃ r ∈ (mergeDatasets [dupIntern] []).2.2,
      r.intern = some (0, normalizeIntern dupIntern) :=
  ((merge_outer_join_semantics [dupIntern] []).1 0 (normalizeIntern dupIntern)
    (by decide)).1

theorem secondary_resolution_recovery_witness :
    FinalCompleteRow.fromResolved
        (ResolvedRow.mk 0 0 (normalizeIntern samIntern) 1 0 (normalizeSupervisor qSup))
      ∈ (processData (mergeDatasets [samIntern] [qSup]).2.2).finalComplete :=
  (secondary_resolution_recovery (mergeDatasets [samIntern] [qSup]).2.2
    (some [115, 97, 109], some [110, 103])
    ⟨0, 0, normalizeIntern samIntern⟩ ⟨1, 0, normalizeSupervisor qSup⟩
    (by decide) (by decide)).2.1

theorem rowId_is_join_position_witness :
    ∃ m, ((mergeDatasets [samIntern] [qSup]).2.2)[0]? = some m
      ∧ m.intern = some (0, normalizeIntern samIntern) :=
  (rowId_is_join_position (mergeDatasets [samIntern] [qSup]).2.2).2.1
    ⟨0, 0, normalizeIntern samIntern⟩ (by decide)

theorem null_key_matching_witness :
    (⟨some (0, nullKeyIntern), some (0, nullKeySup)⟩ : MergedRow)
      ∈ outerJoin [nullKeyIntern] [nullKeySup] :=
  (null_key_matching [nullKeyIntern] [nullKeySup]).2.2.1 0 nullKeyIntern 0 nullKeySup
    (by decide) (by decide) (by decide)

theorem partition_dedup_first_occurrence_witness :
    (supervisorFiltered (outerJoin [] [bobSup])).find?
        (fun p => decide (supKey4Cols p.2 = supKey4 bobSup))
      = some (0, (⟨none, some (0, bobSup)⟩ : MergedRow)) :=
  (partition_dedup_first_occurrence [] [bobSup]).2.2.1 ⟨0, 0, bobSup⟩ (by decide)

theorem submission_final_membership_witness :
    internInFinalComplete (pipeline [dupIntern] []) 0
      ∨ internInFinalOnlyStudent (pipeline [dupIntern] []) 0 :=
  ((submission_final_membership [dupIntern] []).2.2.2.2 (by decide) (by decide)).1
    0 (normalizeIntern dupIntern) (by decide) (by decide)

end Qualtrics

